import Mathlib

/-
Verification development for the EliRefresh plugin registry and dispatch engine.

The repository contains two near-duplicate implementations of the hook
registry: `cloudbot/plugin.py` and `obrbot/plugin.py`.  Definitions below are a
shallow embedding of both; names ending in `C` model the cloudbot variant and
names ending in `O` model the obrbot variant.  Python dicts are modelled as
association lists (insertion-ordered, unique keys), Python `list.remove` as
`removeFirst` (returning `none` where Python would raise `ValueError`), and
Python exceptions escaping a function as an `Except.error` result or an
`Option.none` result, as noted at each definition.
-/

set_option maxHeartbeats 1000000

deriving instance DecidableEq for Except

namespace EliRefresh

/-- Hook kinds of both variants, merged into one enumeration: `onload` is the
cloudbot lifecycle kind (`HookType.onload`), `onStart` and `onStop` are the
obrbot lifecycle kinds (`HookType.on_start`, `HookType.on_stop`). -/
inductive HookKind where
  | command
  | regex
  | event
  | ircRaw
  | sieve
  | onload
  | onStart
  | onStop
deriving DecidableEq, Repr

/-- A runtime hook (classes `Hook`/`CommandHook`/`RegexHook`/`RawHook`/
`SieveHook`/`EventHook`/`OnloadHook`/`OnStartHook`/`OnStopHook`).  The
kind-specific payloads of all subclasses are flattened into one structure; a
hook of a given kind only uses its own payload fields.  `hookId` models Python
object identity (`==` on hooks is identity comparison, as no `__eq__` is
defined); distinct hook objects are given distinct ids.  Regex patterns and
event types are abstracted to opaque numeric ids. -/
structure Hook where
  hookId : Nat
  pluginTitle : String
  pluginFileName : String
  functionName : String
  kind : HookKind
  aliases : List String
  doc : Option String
  autoHelp : Bool
  triggers : List String
  eventTypes : List Nat
  regexes : List Nat
  requiredArgs : List String
  threaded : Bool
  singleThread : Bool
deriving DecidableEq, Repr

/-- `Hook.description`: `"{plugin.title}:{function_name}"`. -/
def Hook.descr (h : Hook) : String :=
  h.pluginTitle ++ ":" ++ h.functionName

/-- `RawHook.is_catch_all`: `"*" in self.triggers`. -/
def Hook.catchAll (h : Hook) : Bool :=
  h.triggers.contains "*"

/-- A loaded plugin (class `Plugin`): per-kind hook lists plus file identity.
`tables` (cloudbot only) holds the names of the sqlalchemy tables found in the
module; obrbot plugins have `tables = []`.  cloudbot has no `onStop` hooks
(`onStop = []`); its `run_on_load` list is the `onStart` field here. -/
structure Plugin where
  filePath : String
  fileName : String
  title : String
  commands : List Hook
  regexes : List Hook
  rawHooks : List Hook
  sieves : List Hook
  events : List Hook
  onStart : List Hook
  onStop : List Hook
  tables : List String
deriving DecidableEq, Repr

/-- A `Plugin(filepath, filename, title)` constructed without backing code, as
`add_hook` creates for internal hooks: all hook lists empty. -/
def emptyPlugin (filepath filename title : String) : Plugin :=
  ⟨filepath, filename, title, [], [], [], [], [], [], [], []⟩

section AssocList

variable {κ : Type} {β : Type} [DecidableEq κ]

/-- Python dict lookup `m[k]` / `m.get(k)` on an association list. -/
def lookupA : List (κ × β) → κ → Option β
  | [], _ => none
  | (k', v') :: rest, k => if k' = k then some v' else lookupA rest k

/-- Python dict assignment `m[k] = v`: replace the value in place if the key is
present, else append a new entry (insertion order preserved). -/
def insertA : List (κ × β) → κ → β → List (κ × β)
  | [], k, v => [(k, v)]
  | (k', v') :: rest, k, v =>
    if k' = k then (k, v) :: rest else (k', v') :: insertA rest k v

/-- Python dict deletion `del m[k]`: drop the entry with the given key. -/
def eraseA : List (κ × β) → κ → List (κ × β)
  | [], _ => []
  | (k', v') :: rest, k => if k' = k then rest else (k', v') :: eraseA rest k

/-- Key uniqueness, the invariant of a Python dict rendered as an association
list. -/
def keysNodup (l : List (κ × β)) : Prop :=
  (l.map Prod.fst).Nodup

instance (l : List (κ × β)) : Decidable (keysNodup l) := by
  unfold keysNodup; infer_instance

end AssocList

/-- Drop the first occurrence of an element from a list. -/
def eraseFirst {α : Type} [DecidableEq α] : List α → α → List α
  | [], _ => []
  | x :: xs, a => if x = a then xs else x :: eraseFirst xs a

/-- Number of occurrences of an element in a list. -/
def countE {α : Type} [DecidableEq α] : List α → α → Nat
  | [], _ => 0
  | x :: xs, a => (if x = a then 1 else 0) + countE xs a

/-- Python `list.remove(a)`: drop the first occurrence, `none` models the
`ValueError` raised when the element is absent. -/
def removeFirst {α : Type} [DecidableEq α] (l : List α) (a : α) : Option (List α) :=
  if a ∈ l then some (eraseFirst l a) else none

/-- The registry index structures owned by `PluginManager` (both variants):
`plugins`, `commands`, `raw_triggers`, `catch_all_triggers`,
`event_type_hooks`, `regex_hooks`, `sieves`. -/
structure Registry where
  plugins : List (String × Plugin)
  commands : List (String × Hook)
  rawTriggers : List (String × List Hook)
  catchAllTriggers : List Hook
  eventTypeHooks : List (Nat × List Hook)
  regexHooks : List (Nat × Hook)
  sieves : List Hook
deriving DecidableEq, Repr

/-- The empty registry, as built by `PluginManager.__init__`. -/
def Registry.empty : Registry :=
  ⟨[], [], [], [], [], [], []⟩

/-- The configuration surface consumed by the loaders: `disabled_plugins`
(consulted by `_unload` in both variants) and the cloudbot `plugin_loading`
whitelist/blacklist policy (`hasPluginLoading` models the key being present in
the config at all). -/
structure Config where
  disabledPlugins : List String
  hasPluginLoading : Bool
  useWhitelist : Bool
  whitelist : List String
  blacklist : List String
deriving DecidableEq, Repr

/-! ## Dispatch pipeline (`launch`, `_sieve`, `_execute_hook`, `_prepare_parameters`)

The Event is an external collaborator: we model it as a bag of named string
attributes.  Hook and sieve callables are external plugin code: their
behaviour is supplied as an environment `Env` mapping a hook's identity and
its bound arguments to an outcome (a returned value or a raised exception).
Observable effects (calls made, log lines emitted, replies sent) are collected
in a trace of `Action`s.  An uncaught Python exception escaping a dispatch
function is an `Except.error ()` result; the trace accumulated before the
exception is still reported.

The `single_thread` wait-queue branch of `launch` affects scheduling only, not
the returned result (both branches return the result of `_execute_hook`); it
is modelled separately as a transition system further below. -/

/-- An event as seen by the dispatcher: named attributes with opaque string
values.  The invocation text `event.text` is the `"text"` attribute; other
attributes (`chan`, `nick`, `conn`, ...) are bound to hook parameters by name. -/
structure Event where
  attrs : List (String × String)
deriving DecidableEq, Repr

/-- Python truthiness test `not event.text`: true when the attribute is absent
(None) or the empty string. -/
def Event.textFalsy (e : Event) : Bool :=
  match lookupA e.attrs "text" with
  | none => true
  | some s => s = ""

/-- Split on newline characters, one output piece per segment, modelling
Python `str.split('\n')` (so `splitNlChars []` is `[[]]`, matching
`"".split('\n') == ['']`). -/
def splitNlChars : List Char → List (List Char)
  | [] => [[]]
  | c :: rest =>
    match splitNlChars rest with
    | [] => [[c]]
    | l :: ls => if c = '\n' then [] :: l :: ls else (c :: l) :: ls

/-- Python `str.split('\n')` on a string. -/
def splitNl (s : String) : List String :=
  (splitNlChars s.toList).map (fun l => String.mk l)

/-- The shape of a non-`None` value returned by a hook callable, as far as
`_execute_hook` inspects it: a list/tuple of strings, or any other object
represented by its `str()` rendering. -/
inductive PyVal where
  | seq (items : List String)
  | other (str : String)
deriving DecidableEq, Repr

/-- Outcome of calling a hook callable: an exception, or a returned value
(`none` = Python `None`). -/
inductive HookOutcome where
  | raise
  | ret (v : Option PyVal)
deriving DecidableEq, Repr

/-- Outcome of calling a sieve callable: an exception, or a returned event
(`none` = Python `None`, i.e. rejection). -/
inductive SieveOutcome where
  | raise
  | ret (e : Option Event)
deriving DecidableEq, Repr

/-- Behaviour of the external plugin callables, keyed by hook identity. -/
structure Env where
  hookBehavior : Nat → List String → HookOutcome
  sieveBehavior : Nat → Event → SieveOutcome

/-- Observable dispatch effects. -/
inductive Action where
  | invokeHook (id : Nat)
  | invokeSieve (id : Nat)
  | logMissingParam (hookDescr arg : String)
  | logHookError (hookDescr : String)
  | logSieveError (sieveDescr hookDescr : String)
  | reply (msgs : List String)
  | message (msg : String)
  | noticeDoc
  | warnDuplicate (newTitle cmdAlias existingTitle : String)
deriving DecidableEq, Repr

/-- The argument-collection loop of `_prepare_parameters`: look up each
required argument name as an event attribute, in declaration order; `none`
when one is absent. -/
def prepareArgsList (event : Event) : List String → Option (List String)
  | [] => some []
  | a :: rest =>
    match lookupA event.attrs a with
    | some v => (prepareArgsList event rest).map (v :: ·)
    | none => none

/-- `_prepare_parameters` (identical in both variants): collect the hook's
required arguments from the event; `none` when one is absent (the error log
is emitted by the caller models below). -/
def prepareParameters (hook : Hook) (event : Event) : Option (List String) :=
  prepareArgsList event hook.requiredArgs

/-- The first required argument missing from the event, if any (the argument
named in the `_prepare_parameters` error log). -/
def firstMissingArg (hook : Hook) (event : Event) : Option String :=
  hook.requiredArgs.find? (fun a => (lookupA event.attrs a).isNone)

/-- cloudbot `PluginManager._execute_hook` (together with
`_execute_hook_threaded` / `_execute_hook_sync`, whose threaded/sync split
does not affect the result).  Missing parameters: the inner helper returns
`None`, which falls through `if out is not None` to `return True`.  A raised
callable exception is caught and logged, returning `False`.  A list/tuple
result replies with element 0 and sends the rest via `event.message`; indexing
`out[0]` on an empty list raises an uncaught `IndexError` (`Except.error`).
Any other non-`None` result is stringified into a single reply. -/
def executeHookC (env : Env) (hook : Hook) (event : Event) :
    Except Unit Bool × List Action :=
  match prepareParameters hook event with
  | none =>
    (.ok true, [.logMissingParam hook.descr ((firstMissingArg hook event).getD "")])
  | some ps =>
    match env.hookBehavior hook.hookId ps with
    | .raise => (.ok false, [.invokeHook hook.hookId, .logHookError hook.descr])
    | .ret none => (.ok true, [.invokeHook hook.hookId])
    | .ret (some (.seq [])) => (.error (), [.invokeHook hook.hookId])
    | .ret (some (.seq (x :: rest))) =>
      (.ok true, [.invokeHook hook.hookId, .reply [x]] ++ rest.map .message)
    | .ret (some (.other s)) =>
      (.ok true, [.invokeHook hook.hookId, .reply [s]])

/-- obrbot `PluginManager._execute_hook`.  Missing parameters return `False`.
A list/tuple result is passed whole to a single `event.reply(*out)` call; any
other non-`None` result is stringified, split on newlines, and the pieces
passed to a single `event.reply(*...)` call. -/
def executeHookO (env : Env) (hook : Hook) (event : Event) :
    Except Unit Bool × List Action :=
  match prepareParameters hook event with
  | none =>
    (.ok false, [.logMissingParam hook.descr ((firstMissingArg hook event).getD "")])
  | some ps =>
    match env.hookBehavior hook.hookId ps with
    | .raise => (.ok false, [.invokeHook hook.hookId, .logHookError hook.descr])
    | .ret none => (.ok true, [.invokeHook hook.hookId])
    | .ret (some (.seq l)) =>
      (.ok true, [.invokeHook hook.hookId, .reply l])
    | .ret (some (.other s)) =>
      (.ok true, [.invokeHook hook.hookId, .reply (splitNl s)])

/-- `PluginManager._sieve` (same control flow in both variants; they differ
only in the Python arguments passed to the sieve callable, abstracted by
`Env.sieveBehavior`): a raised sieve exception is caught, logged naming both
the sieve and the target hook, and converted to `None` (rejection). -/
def sievePass (env : Env) (sieve hook : Hook) (event : Event) :
    Option Event × List Action :=
  match env.sieveBehavior sieve.hookId event with
  | .raise => (none, [.invokeSieve sieve.hookId, .logSieveError sieve.descr hook.descr])
  | .ret r => (r, [.invokeSieve sieve.hookId])

/-- The sieve loop of `launch`: pass the event through every sieve in
registration order, stopping at the first that yields no event. -/
def runSieves (env : Env) (hook : Hook) : List Hook → Event → Option Event × List Action
  | [], e => (some e, [])
  | s :: rest, e =>
    match sievePass env s hook e with
    | (none, tr) => (none, tr)
    | (some e', tr) =>
      let (r, tr') := runSieves env hook rest e'
      (r, tr ++ tr')

/-- The help-check condition of `launch` (identical in both variants):
`hook.type is HookType.command and hook.auto_help and not event.text and
hook.doc is not None`. -/
def helpCond (hook : Hook) (e : Event) : Prop :=
  hook.kind = .command ∧ hook.autoHelp = true ∧ e.textFalsy = true ∧ hook.doc ≠ none

instance (hook : Hook) (e : Event) : Decidable (helpCond hook e) := by
  unfold helpCond; infer_instance

/-- cloudbot `PluginManager.launch`: sieves (skipped for `onload` hooks), then
the auto-help short circuit, then hook execution.  The `single_thread`
serialization branch returns the same result as the direct branch and is
modelled separately. -/
def launchC (env : Env) (sieves : List Hook) (hook : Hook) (event : Event) :
    Except Unit Bool × List Action :=
  let (ev?, tr) :=
    if hook.kind = .onload then (some event, [])
    else runSieves env hook sieves event
  match ev? with
  | none => (.ok false, tr)
  | some e =>
    if helpCond hook e then (.ok false, tr ++ [.noticeDoc])
    else
      let (r, tr') := executeHookC env hook e
      (r, tr ++ tr')

/-- obrbot `PluginManager.launch`: as cloudbot, but sieves are skipped for
both `on_start` and `on_stop` hooks, and execution is `executeHookO`. -/
def launchO (env : Env) (sieves : List Hook) (hook : Hook) (event : Event) :
    Except Unit Bool × List Action :=
  let (ev?, tr) :=
    if hook.kind = .onStart ∨ hook.kind = .onStop then (some event, [])
    else runSieves env hook sieves event
  match ev? with
  | none => (.ok false, tr)
  | some e =>
    if helpCond hook e then (.ok false, tr ++ [.noticeDoc])
    else
      let (r, tr') := executeHookO env hook e
      (r, tr ++ tr')

/-! ## Hook registration (the indexing loops of `load_plugin` / `add_hook`)

The per-kind registration loops are textually identical in the two variants
(and between `load_plugin` and `add_hook`), so they are modelled once. -/

/-- The alias loop of command registration: for each alias of the hook, in
order, register it unless the alias is already taken, in which case log a
warning naming the new plugin, the alias and the prior owner, and keep the
prior mapping. -/
def registerAliases (ch : Hook) (cmds : List (String × Hook)) :
    List String → List (String × Hook) × List Action
  | [] => (cmds, [])
  | a :: rest =>
    match lookupA cmds a with
    | some ex =>
      let r := registerAliases ch cmds rest
      (r.1, .warnDuplicate ch.pluginTitle a ex.pluginTitle :: r.2)
    | none => registerAliases ch (insertA cmds a ch) rest

/-- The command-registration loop over a plugin's command hooks. -/
def registerCommands (cmds : List (String × Hook)) :
    List Hook → List (String × Hook) × List Action
  | [] => (cmds, [])
  | ch :: rest =>
    let r := registerAliases ch cmds ch.aliases
    let r' := registerCommands r.1 rest
    (r'.1, r.2 ++ r'.2)

/-- Keyed multi-hook registration, shared shape of the `raw_triggers` (string
keys) and `event_type_hooks` (event-type keys) loops: append the hook to the
list at each key, creating a singleton list for a fresh key. -/
def registerKeyed {κ : Type} [DecidableEq κ] (m : List (κ × List Hook)) (h : Hook) :
    List κ → List (κ × List Hook)
  | [] => m
  | k :: rest =>
    let m' := match lookupA m k with
      | some l => insertA m k (l ++ [h])
      | none => insertA m k [h]
    registerKeyed m' h rest

/-- The raw-hook registration loop: catch-all hooks are appended to
`catch_all_triggers`, others filed under each of their triggers. -/
def registerRawAll (rt : List (String × List Hook)) (ca : List Hook) :
    List Hook → List (String × List Hook) × List Hook
  | [] => (rt, ca)
  | h :: rest =>
    if h.catchAll then registerRawAll rt (ca ++ [h]) rest
    else registerRawAll (registerKeyed rt h h.triggers) ca rest

/-- The event-hook registration loop. -/
def registerEventsAll (m : List (Nat × List Hook)) : List Hook → List (Nat × List Hook)
  | [] => m
  | h :: rest => registerEventsAll (registerKeyed m h h.eventTypes) rest

/-- The regex-hook registration loop: append one `(pattern, hook)` pair per
pattern of each hook. -/
def registerRegexAll (pairs : List (Nat × Hook)) : List Hook → List (Nat × Hook)
  | [] => pairs
  | h :: rest => registerRegexAll (pairs ++ h.regexes.map (fun rid => (rid, h))) rest

/-! ## Unload (`PluginManager._unload`)

The unregistration body is textually identical in the two variants except that
cloudbot additionally calls `plugin.unregister_tables`; the shared part is
`unloadCore`.  The defensive `assert trigger in self.raw_triggers` (and its
event twin), as well as the `ValueError` a `list.remove` would raise on a
missing element, are modelled by an `Option.none` result: they are uncaught
exceptions that abort the unload. -/

/-- The command-unregistration loop of `_unload` for one hook: delete each of
its aliases, but only when the currently mapped hook is this very hook
(identity comparison), protecting another plugin's conflict winner. -/
def unregisterAliases (ch : Hook) (cmds : List (String × Hook)) :
    List String → List (String × Hook)
  | [] => cmds
  | a :: rest =>
    let cmds' := match lookupA cmds a with
      | some h => if h = ch then eraseA cmds a else cmds
      | none => cmds
    unregisterAliases ch cmds' rest

/-- The command-unregistration loop over a plugin's command hooks. -/
def unregisterCommands (cmds : List (String × Hook)) : List Hook → List (String × Hook)
  | [] => cmds
  | ch :: rest => unregisterCommands (unregisterAliases ch cmds ch.aliases) rest

/-- Keyed multi-hook unregistration for one hook, shared shape of the
`raw_triggers` and `event_type_hooks` loops of `_unload`: assert the key is
present, remove the hook from its list, and delete the key if the list became
empty. -/
def unregisterKeyed {κ : Type} [DecidableEq κ] (h : Hook) (m : List (κ × List Hook)) :
    List κ → Option (List (κ × List Hook))
  | [] => some m
  | k :: rest => do
    let l ← lookupA m k
    let l' ← removeFirst l h
    let m' := if l' = [] then eraseA m k else insertA m k l'
    unregisterKeyed h m' rest

/-- The raw-hook unregistration loop of `_unload`. -/
def unregisterRawAll (rt : List (String × List Hook)) (ca : List Hook) :
    List Hook → Option (List (String × List Hook) × List Hook)
  | [] => some (rt, ca)
  | h :: rest =>
    if h.catchAll then do
      let ca' ← removeFirst ca h
      unregisterRawAll rt ca' rest
    else do
      let rt' ← unregisterKeyed h rt h.triggers
      unregisterRawAll rt' ca rest

/-- The event-hook unregistration loop of `_unload`. -/
def unregisterEventsAll (m : List (Nat × List Hook)) : List Hook → Option (List (Nat × List Hook))
  | [] => some m
  | h :: rest => do
    let m' ← unregisterKeyed h m h.eventTypes
    unregisterEventsAll m' rest

/-- The per-hook inner loop of regex unregistration: remove the
`(pattern, hook)` pair for each pattern of the hook. -/
def unregisterRegexHook (h : Hook) (pairs : List (Nat × Hook)) :
    List Nat → Option (List (Nat × Hook))
  | [] => some pairs
  | rid :: rids => do
    let pairs' ← removeFirst pairs (rid, h)
    unregisterRegexHook h pairs' rids

/-- The regex-pair unregistration loop of `_unload`. -/
def unregisterRegexAll (pairs : List (Nat × Hook)) : List Hook → Option (List (Nat × Hook))
  | [] => some pairs
  | h :: rest => do
    let pairs' ← unregisterRegexHook h pairs h.regexes
    unregisterRegexAll pairs' rest

/-- The sieve unregistration loop of `_unload`. -/
def unregisterSievesAll (sv : List Hook) : List Hook → Option (List Hook)
  | [] => some sv
  | h :: rest => do
    let sv' ← removeFirst sv h
    unregisterSievesAll sv' rest

/-- The index-unregistration body shared verbatim by the two `_unload`
implementations: unregister commands (guarded), raw hooks (asserted), events
(asserted), regex pairs, sieves, then delete the plugin from `plugins`. -/
def unloadCore (st : Registry) (p : Plugin) : Option Registry := do
  let cmds := unregisterCommands st.commands p.commands
  let (rt, ca) ← unregisterRawAll st.rawTriggers st.catchAllTriggers p.rawHooks
  let eth ← unregisterEventsAll st.eventTypeHooks p.events
  let rx ← unregisterRegexAll st.regexHooks p.regexes
  let sv ← unregisterSievesAll st.sieves p.sieves
  some { st with
    commands := cmds
    rawTriggers := rt
    catchAllTriggers := ca
    eventTypeHooks := eth
    regexHooks := rx
    sieves := sv
    plugins := eraseA st.plugins p.fileName }

/-- obrbot `PluginManager._unload`.  The Python function takes a path and
derives `file_name`/`title` by `os.path` string surgery (external); the model
takes them directly.  Returns the updated registry and the Python return
value; `none` models an uncaught assertion/`ValueError` aborting the unload. -/
def unloadO (cfg : Config) (st : Registry) (fileName title : String) :
    Option (Registry × Bool) :=
  if title ∈ cfg.disabledPlugins then some (st, false)
  else
    match lookupA st.plugins fileName with
    | none => some (st, false)
    | some p => (unloadCore st p).map (fun st' => (st', true))

/-- cloudbot `PluginManager._unload`: as obrbot, plus
`plugin.unregister_tables(self.bot)` which removes each of the plugin's tables
from the shared sqlalchemy metadata (modelled as a list of table names;
removal is pointwise). -/
def unloadC (cfg : Config) (st : Registry) (meta : List String) (fileName title : String) :
    Option (Registry × List String × Bool) :=
  if title ∈ cfg.disabledPlugins then some (st, meta, false)
  else
    match lookupA st.plugins fileName with
    | none => some (st, meta, false)
    | some p =>
      (unloadCore st p).map
        (fun st' => (st', meta.filter (fun t => t ∉ p.tables), true))

/-! ## Plugin load (`PluginManager.load_plugin`)

Module import and re-evaluation is external Python machinery; the model takes
the resulting `Plugin` value directly (its hook lists are what `find_hooks`
extracts) together with a flag `modOk` for whether the import succeeded.  The
`OnLoad`/`OnStart` hooks run through `launch` with a synthetic event; `launch`
never touches the registry, so their outcome is abstracted as a boolean per
hook (`onloadRes`). -/

/-- The cloudbot plugin-enable gate: whitelist-if-enabled else blacklist,
consulted only when the `plugin_loading` config key is present.  (obrbot's
`load_plugin` has no such gate.) -/
def loadGateC (cfg : Config) (title : String) : Bool :=
  if cfg.hasPluginLoading then
    if cfg.useWhitelist then cfg.whitelist.contains title
    else !(cfg.blacklist.contains title)
  else true

/-- The hook-indexing tail of `load_plugin` (identical in the two variants):
store the plugin (with its one-time on-load hook list discarded, modelling
`del plugin.run_on_load`), then register commands, raw hooks, events, regexes
and sieves. -/
def registerPlugin (st : Registry) (p : Plugin) : Registry :=
  let st := { st with plugins := insertA st.plugins p.fileName { p with onStart := [] } }
  let st := { st with commands := (registerCommands st.commands p.commands).1 }
  let (rt, ca) := registerRawAll st.rawTriggers st.catchAllTriggers p.rawHooks
  let st := { st with rawTriggers := rt, catchAllTriggers := ca }
  let st := { st with eventTypeHooks := registerEventsAll st.eventTypeHooks p.events }
  let st := { st with regexHooks := registerRegexAll st.regexHooks p.regexes }
  { st with sieves := st.sieves ++ p.sieves }

/-- obrbot `PluginManager.load_plugin`: unload any previously loaded plugin
with this file name, import the module (`modOk = false`: log and return with
the registry as it then stands), run the `on_start` hooks in declaration order
and abort registration at the first failure, else index every hook. -/
def loadPluginO (cfg : Config) (st : Registry) (p : Plugin) (modOk : Bool)
    (onloadRes : Hook → Bool) : Option Registry := do
  let st ←
    if (lookupA st.plugins p.fileName).isSome then
      (unloadO cfg st p.fileName p.title).map Prod.fst
    else some st
  if modOk = false then some st
  else
    match p.onStart.find? (fun h => !onloadRes h) with
    | some _ => some st
    | none => some (registerPlugin st p)

/-- cloudbot `PluginManager.load_plugin`: as obrbot, plus the plugin-enable
gate, and table bookkeeping: a successful module import registers the module's
sqlalchemy tables on the shared metadata (`meta`), `create_tables` touches
only the database engine (external, no model state), and an `onload` failure
tears the plugin's tables back out of the metadata via `unregister_tables`. -/
def loadPluginC (cfg : Config) (st : Registry) (meta : List String) (p : Plugin)
    (modOk : Bool) (onloadRes : Hook → Bool) : Option (Registry × List String) := do
  if loadGateC cfg p.title = false then some (st, meta)
  else
    let (st, meta) ←
      if (lookupA st.plugins p.fileName).isSome then
        (unloadC cfg st meta p.fileName p.title).map (fun r => (r.1, r.2.1))
      else some (st, meta)
    if modOk = false then some (st, meta)
    else
      let meta := p.tables.foldl (fun m t => if t ∈ m then m else m ++ [t]) meta
      match p.onStart.find? (fun h => !onloadRes h) with
      | some _ => some (st, meta.filter (fun t => t ∉ p.tables))
      | none => some (registerPlugin st p, meta)

/-! ## Internal hook registration (`PluginManager.add_hook`)

The defining source file of the function is external reflection
(`inspect.getmodule`); the model takes the file's base name and the
`os.path.splitext` title directly.  The `*Hook` object built by the external
`hook.py` processing is likewise taken as a parameter, used only on the
non-raising path.  A raised `ValueError` is `Except.error ()`; note the state
is returned alongside it, as the Python `raise` leaves the already-performed
`self.plugins` mutation in place. -/

/-- cloudbot `PluginManager.add_hook`: resolve or create the synthetic
`internal/`-prefixed plugin, then reject `onload` hooks with `ValueError`,
else index the hook by kind. -/
def addHookC (st : Registry) (kind : HookKind) (fnFileBase fnTitle : String)
    (newHook : Hook) : Registry × Except Unit Unit :=
  let filename := "internal/" ++ fnFileBase
  let st :=
    match lookupA st.plugins filename with
    | some _ => st
    | none =>
      { st with plugins := insertA st.plugins filename (emptyPlugin fnFileBase filename fnTitle) }
  if kind = .onload then (st, .error ())
  else
    match kind with
    | .command => ({ st with commands := (registerAliases newHook st.commands newHook.aliases).1 }, .ok ())
    | .ircRaw =>
      if newHook.catchAll then
        ({ st with catchAllTriggers := st.catchAllTriggers ++ [newHook] }, .ok ())
      else
        ({ st with rawTriggers := registerKeyed st.rawTriggers newHook newHook.triggers }, .ok ())
    | .event =>
      ({ st with eventTypeHooks := registerKeyed st.eventTypeHooks newHook newHook.eventTypes }, .ok ())
    | .regex =>
      ({ st with regexHooks := st.regexHooks ++ newHook.regexes.map (fun rid => (rid, newHook)) }, .ok ())
    | .sieve => ({ st with sieves := st.sieves ++ [newHook] }, .ok ())
    | _ => (st, .ok ())

/-- obrbot `PluginManager.add_hook`: as cloudbot, but both `on_start` and
`command` hooks are rejected with `ValueError` (command registration is
dropped from the kind dispatch accordingly). -/
def addHookO (st : Registry) (kind : HookKind) (fnFileBase fnTitle : String)
    (newHook : Hook) : Registry × Except Unit Unit :=
  let filename := "internal/" ++ fnFileBase
  let st :=
    match lookupA st.plugins filename with
    | some _ => st
    | none =>
      { st with plugins := insertA st.plugins filename (emptyPlugin fnFileBase filename fnTitle) }
  if kind = .onStart then (st, .error ())
  else if kind = .command then (st, .error ())
  else
    match kind with
    | .ircRaw =>
      if newHook.catchAll then
        ({ st with catchAllTriggers := st.catchAllTriggers ++ [newHook] }, .ok ())
      else
        ({ st with rawTriggers := registerKeyed st.rawTriggers newHook newHook.triggers }, .ok ())
    | .event =>
      ({ st with eventTypeHooks := registerKeyed st.eventTypeHooks newHook newHook.eventTypes }, .ok ())
    | .regex =>
      ({ st with regexHooks := st.regexHooks ++ newHook.regexes.map (fun rid => (rid, newHook)) }, .ok ())
    | .sieve => ({ st with sieves := st.sieves ++ [newHook] }, .ok ())
    | _ => (st, .ok ())

/-! ## Single-thread serialization (the `single_thread` branch of `launch`)

The wait-queue protocol of `launch` for one key of `_hook_waiting_queues` is
modelled as a transition system over the cooperative event loop: every code
region between two `yield from` suspension points is one atomic step.  Tasks
are identified by numbers `0, ..., n-1`; the map entry for the key is
`none` (key absent), `some none` (the Python `None` marker: a hook is running
and no queue has been created), or `some (some q)` (an `asyncio.Queue` holding
the waiting tasks' futures in FIFO order, represented by their task ids).

A task's life: it arrives (either starting to execute immediately when the key
is absent, or enqueueing a future and suspending); a finishing task either
deletes the key (queue absent or empty) or dequeues the next future and
resolves it, making that task `woken`; a woken task resumes on the event loop
and begins executing.  `arrived` and `started` record the order of arrivals
and of execution starts. -/

/-- Status of one task in the wait-queue protocol. -/
inductive TaskStatus where
  | idle
  | waiting
  | woken
  | running
  | done
deriving DecidableEq, Repr

/-- Protocol state for a single key of `_hook_waiting_queues`. -/
structure QState where
  entry : Option (Option (List Nat))
  status : List TaskStatus
  arrived : List Nat
  started : List Nat
deriving DecidableEq, Repr

/-- Status of task `t` (out-of-range tasks read as `idle`). -/
def QState.statusOf (s : QState) (t : Nat) : TaskStatus :=
  s.status.getD t .idle

/-- The waiting queue currently stored for the key, if any. -/
def QState.queueOf (s : QState) : List Nat :=
  match s.entry with
  | some (some q) => q
  | _ => []

/-- Task `t` has an execution of the hook in flight: it is running, or it has
been dequeued and its future resolved but it has not yet resumed. -/
def QState.inFlight (s : QState) (t : Nat) : Prop :=
  s.statusOf t = .running ∨ s.statusOf t = .woken

instance (s : QState) (t : Nat) : Decidable (s.inFlight t) := by
  unfold QState.inFlight; infer_instance

/-- Initial state: no entry for the key, `n` tasks not yet arrived. -/
def initQState (n : Nat) : QState :=
  ⟨none, List.replicate n .idle, [], []⟩

/-- One atomic step of the wait-queue protocol (one suspension-free code
region of the `single_thread` branch of `launch`). -/
inductive QStep : QState → QState → Prop where
  /-- A task arrives and the key is absent: mark the key busy with the `None`
  marker and begin executing immediately. -/
  | arriveRun (s : QState) (t : Nat) (ht : t < s.status.length)
      (hs : s.statusOf t = .idle) (he : s.entry = none) :
      QStep s { entry := some none, status := s.status.set t .running,
                arrived := s.arrived ++ [t], started := s.started ++ [t] }
  /-- A task arrives, the key holds the `None` marker: create the queue,
  enqueue this task's future and suspend on it. -/
  | arriveNewQueue (s : QState) (t : Nat) (ht : t < s.status.length)
      (hs : s.statusOf t = .idle) (he : s.entry = some none) :
      QStep s { entry := some (some [t]), status := s.status.set t .waiting,
                arrived := s.arrived ++ [t], started := s.started }
  /-- A task arrives, a queue exists: enqueue this task's future and suspend. -/
  | arriveJoin (s : QState) (t : Nat) (q : List Nat) (ht : t < s.status.length)
      (hs : s.statusOf t = .idle) (he : s.entry = some (some q)) :
      QStep s { entry := some (some (q ++ [t])), status := s.status.set t .waiting,
                arrived := s.arrived ++ [t], started := s.started }
  /-- A running task finishes while the key still holds the `None` marker:
  delete the key. -/
  | finishNoQueue (s : QState) (t : Nat) (hs : s.statusOf t = .running)
      (he : s.entry = some none) :
      QStep s { entry := none, status := s.status.set t .done,
                arrived := s.arrived, started := s.started }
  /-- A running task finishes and the queue exists but is empty: delete the
  key. -/
  | finishEmptyQueue (s : QState) (t : Nat) (hs : s.statusOf t = .running)
      (he : s.entry = some (some [])) :
      QStep s { entry := none, status := s.status.set t .done,
                arrived := s.arrived, started := s.started }
  /-- A running task finishes and the queue is non-empty: dequeue the head
  future and resolve it, waking that task. -/
  | finishWake (s : QState) (t u : Nat) (rest : List Nat)
      (hs : s.statusOf t = .running) (he : s.entry = some (some (u :: rest))) :
      QStep s { entry := some (some rest),
                status := (s.status.set t .done).set u .woken,
                arrived := s.arrived, started := s.started }
  /-- A woken task is scheduled by the event loop and begins executing. -/
  | resume (s : QState) (u : Nat) (hu : s.statusOf u = .woken) :
      QStep s { entry := s.entry, status := s.status.set u .running,
                arrived := s.arrived, started := s.started ++ [u] }

/-- Reachability of a protocol state from the initial state with `n` tasks. -/
def QReachable (n : Nat) (s : QState) : Prop :=
  Relation.ReflTransGen QStep (initQState n) s

/-- The inductive invariant of the wait-queue protocol. -/
structure QInv (s : QState) : Prop where
  uniqueFlight : ∀ t₁ t₂, s.inFlight t₁ → s.inFlight t₂ → t₁ = t₂
  noneNoFlight : s.entry = none → ∀ t, ¬ s.inFlight t
  noneNoWait : s.entry = none → ∀ t, s.statusOf t ≠ .waiting
  busyNoWait : s.entry = some none → ∀ t, s.statusOf t ≠ .waiting
  busyNoWoken : s.entry = some none → ∀ t, s.statusOf t ≠ .woken
  queueWaiting : ∀ q, s.entry = some (some q) → ∀ t, (s.statusOf t = .waiting ↔ t ∈ q)
  queueNodup : ∀ q, s.entry = some (some q) → q.Nodup
  queueLt : ∀ q, s.entry = some (some q) → ∀ t ∈ q, t < s.status.length
  wokenQueue : ∀ u, s.statusOf u = .woken → ∃ q, s.entry = some (some q)
  orderEq : ∃ w, s.arrived = s.started ++ w ++ s.queueOf ∧
    ((w = [] ∧ ∀ u, s.statusOf u ≠ .woken) ∨
     (∃ u, w = [u] ∧ s.statusOf u = .woken))

/-! ## Concrete instances used by witnesses and counterexamples

Field order of `Hook`: hookId, pluginTitle, pluginFileName, functionName,
kind, aliases, doc, autoHelp, triggers, eventTypes, regexes, requiredArgs,
threaded, singleThread. -/

/-- The final protocol state of the two-task scenario used for C6: both tasks
arrived, executed one at a time and finished, in FIFO order. -/
def qsC6 : QState :=
  ⟨none, [.done, .done], [0, 1], [0, 1]⟩

/-- A hook requiring the `chan` parameter. -/
def hookC1 : Hook :=
  ⟨1, "p1", "p1.py", "f1", .event, [], none, true, [], [], [], ["chan"], true, false⟩

/-- An event exposing only `text`. -/
def eventC1 : Event := ⟨[("text", "hi")]⟩

/-- An environment whose hooks return `None` and whose sieves pass the event
through unchanged. -/
def envC1 : Env := ⟨fun _ _ => .ret none, fun _ e => .ret (some e)⟩

/-- A raw-trigger target hook. -/
def hookC5 : Hook :=
  ⟨2, "p5", "p5.py", "tgt", .ircRaw, [], none, true, ["PRIVMSG"], [], [], [], true, false⟩

/-- A rejecting sieve (its id 10 is rejected by `envC5`). -/
def sieveC5 : Hook :=
  ⟨10, "s5", "s5.py", "sv", .sieve, [], none, true, [], [], [], [], true, false⟩

/-- A later sieve that `envC5` would pass. -/
def sieveC5b : Hook :=
  ⟨11, "s5", "s5.py", "sv2", .sieve, [], none, true, [], [], [], [], true, false⟩

/-- Environment where sieve 10 rejects every event and all others pass it
unchanged. -/
def envC5 : Env :=
  ⟨fun _ _ => .ret none, fun id e => if id = 10 then .ret none else .ret (some e)⟩

/-- A sample event. -/
def eventC5 : Event := ⟨[("text", "x")]⟩

/-- A hook with no required arguments whose callable raises. -/
def hookC7 : Hook :=
  ⟨3, "p7", "p7.py", "boom", .event, [], none, true, [], [], [], [], true, false⟩

/-- A sieve whose callable raises (id 12 in `envC7`). -/
def sieveC7 : Hook :=
  ⟨12, "s7", "s7.py", "sv", .sieve, [], none, true, [], [], [], [], true, false⟩

/-- Environment where every hook callable raises and sieve 12 raises. -/
def envC7 : Env :=
  ⟨fun _ _ => .raise, fun id e => if id = 12 then .raise else .ret (some e)⟩

/-- An attribute-free event. -/
def eventC7 : Event := ⟨[]⟩

/-- A hook with no required arguments. -/
def hookC8 : Hook :=
  ⟨7, "p8", "p8.py", "g", .event, [], none, true, [], [], [], [], true, false⟩

/-- Environment whose hooks return the list `["a", "b"]`. -/
def envC8a : Env :=
  ⟨fun _ _ => .ret (some (.seq ["a", "b"])), fun _ e => .ret (some e)⟩

/-- Environment whose hooks return a non-sequence value whose `str()` is
`"a\nb"`. -/
def envC8b : Env :=
  ⟨fun _ _ => .ret (some (.other "a\nb")), fun _ e => .ret (some e)⟩

/-- An attribute-free event. -/
def eventC8 : Event := ⟨[]⟩

/-- A command hook with auto-help, a non-empty doc string and no required
arguments. -/
def hookC9 : Hook :=
  ⟨4, "p9", "p9.py", "cmd", .command, ["cmd"], some "usage: .cmd <x>", true,
    [], [], [], [], true, false⟩

/-- An event with empty invocation text. -/
def eventC9 : Event := ⟨[("text", "")]⟩

/-- An environment whose hooks return `None` and whose sieves pass. -/
def envC9 : Env := ⟨fun _ _ => .ret none, fun _ e => .ret (some e)⟩

/-- A command hook of plugin `pA` owning alias `x`. -/
def hookC3a : Hook :=
  ⟨20, "pA", "pA.py", "fa", .command, ["x"], none, true, [], [], [], [], true, false⟩

/-- A command hook of plugin `pB` with the conflicting alias `x` and the fresh
alias `y`. -/
def hookC3b : Hook :=
  ⟨21, "pB", "pB.py", "fb", .command, ["x", "y"], none, true, [], [], [], [], true, false⟩

/-- The command hook of the previously loaded version of plugin `a`.
Field order of `Plugin`: filePath, fileName, title, commands, regexes,
rawHooks, sieves, events, onStart, onStop, tables. -/
def hookC2 : Hook :=
  ⟨30, "a", "a.py", "f", .command, ["x"], none, true, [], [], [], [], true, false⟩

/-- The previously loaded version of plugin `a`, owning command alias `x`. -/
def pluginC2old : Plugin :=
  ⟨"/abs/a.py", "a.py", "a", [hookC2], [], [], [], [], [], [], []⟩

/-- A lifecycle hook of the new version of plugin `a`. -/
def hookC2on : Hook :=
  ⟨31, "a", "a.py", "onl", .onStart, [], none, true, [], [], [], [], true, false⟩

/-- A command hook of the new version of plugin `a`. -/
def hookC2n : Hook :=
  ⟨32, "a", "a.py", "g", .command, ["x"], none, true, [], [], [], [], true, false⟩

/-- The new version of plugin `a`: one command hook, one lifecycle hook, and
one table (for the cloudbot metadata bookkeeping). -/
def pluginC2new : Plugin :=
  ⟨"/abs/a.py", "a.py", "a", [hookC2n], [], [], [], [], [hookC2on], [], ["tbl"]⟩

/-- A registry in which the old version of plugin `a` is loaded. -/
def stC2 : Registry :=
  ⟨[("a.py", pluginC2old)], [("x", hookC2)], [], [], [], [], []⟩

/-- A configuration with nothing disabled and no `plugin_loading` policy. -/
def cfgC2 : Config := ⟨[], false, false, [], []⟩

/-- A sample internal hook for `add_hook`. -/
def hookC10 : Hook :=
  ⟨5, "internal/x", "internal/x.py", "h", .sieve, [], none, true, [], [], [], [], true, false⟩

/-- The registry after the non-atomic raising path of `add_hook`: identical to
`st` except that `plugins` gained the empty synthetic plugin. -/
def addHookRaisedState (st : Registry) (base title : String) : Registry :=
  { st with
    plugins :=
      insertA st.plugins ("internal/" ++ base) (emptyPlugin base ("internal/" ++ base) title) }

/-- Well-formedness of the registry relative to a loaded plugin `p`, as
established by registration: command entries map aliases of their hook; dict
keys are unique; trigger/event lists are nonempty and contain each of `p`'s
hooks exactly once under exactly the hook's own keys; catch-all raw hooks
appear exactly once in `catch_all_triggers` and trigger-specific ones not at
all; regex pairs occur exactly once per pattern of the owning hook; sieves
occur exactly once; and `p`'s hook lists are duplicate-free. -/
def UnloadReady (st : Registry) (p : Plugin) : Prop :=
  (∀ pr ∈ st.commands, pr.1 ∈ pr.2.aliases) ∧
  keysNodup st.commands ∧
  keysNodup st.rawTriggers ∧
  (∀ pr ∈ st.rawTriggers, pr.2 ≠ []) ∧
  p.rawHooks.Nodup ∧
  (∀ h ∈ p.rawHooks, h.triggers.Nodup) ∧
  (∀ h ∈ p.rawHooks, h.catchAll = true → countE st.catchAllTriggers h = 1) ∧
  (∀ h ∈ p.rawHooks, h.catchAll = false → h ∉ st.catchAllTriggers ∧
    ∀ t ∈ h.triggers, (lookupA st.rawTriggers t).isSome = true ∧
      countE ((lookupA st.rawTriggers t).getD []) h = 1) ∧
  (∀ h ∈ p.rawHooks, ∀ pr ∈ st.rawTriggers, h ∈ pr.2 →
    pr.1 ∈ h.triggers ∧ h.catchAll = false) ∧
  keysNodup st.eventTypeHooks ∧
  (∀ pr ∈ st.eventTypeHooks, pr.2 ≠ []) ∧
  p.events.Nodup ∧
  (∀ h ∈ p.events, h.eventTypes.Nodup) ∧
  (∀ h ∈ p.events, ∀ ty ∈ h.eventTypes, (lookupA st.eventTypeHooks ty).isSome = true ∧
    countE ((lookupA st.eventTypeHooks ty).getD []) h = 1) ∧
  (∀ h ∈ p.events, ∀ pr ∈ st.eventTypeHooks, h ∈ pr.2 → pr.1 ∈ h.eventTypes) ∧
  p.regexes.Nodup ∧
  (∀ h ∈ p.regexes, h.regexes.Nodup) ∧
  (∀ h ∈ p.regexes, ∀ rid ∈ h.regexes, countE st.regexHooks (rid, h) = 1) ∧
  (∀ h ∈ p.regexes, ∀ pr ∈ st.regexHooks, pr.2 = h → pr.1 ∈ h.regexes) ∧
  p.sieves.Nodup ∧
  (∀ h ∈ p.sieves, countE st.sieves h = 1)

instance (st : Registry) (p : Plugin) : Decidable (UnloadReady st p) := by
  unfold UnloadReady
  infer_instance

/-- The expected commands index after unregistering `hooks`: an alias entry is
dropped exactly when its mapped hook is one of the hooks being removed and the
alias is among that hook's aliases. -/
def unregCmdExpect (cmds : List (String × Hook)) (hooks : List Hook) (x : String) :
    Option Hook :=
  match lookupA cmds x with
  | some h₀ => if h₀ ∈ hooks ∧ x ∈ h₀.aliases then none else some h₀
  | none => none

/-- The expected keyed index after unregistering one hook `h` under `keys`:
at each of those keys the hook is removed once and the entry dropped if it
became empty; other keys are untouched. -/
def unregKeyedExpect {κ : Type} [DecidableEq κ] (m : List (κ × List Hook)) (h : Hook)
    (keys : List κ) (k : κ) : Option (List Hook) :=
  match lookupA m k with
  | none => none
  | some l =>
    if k ∈ keys then (if eraseFirst l h = [] then none else some (eraseFirst l h)) else some l

/-- A configuration that administratively disables plugin `b`. -/
def cfgC4 : Config := ⟨["b"], false, false, [], []⟩

/-- A raw-trigger hook of plugin `b` registered under `PRIVMSG`. -/
def hookC4raw : Hook :=
  ⟨40, "b", "b.py", "raw", .ircRaw, [], none, true, ["PRIVMSG"], [], [], [], true, false⟩

/-- A catch-all raw hook of plugin `b`. -/
def hookC4ca : Hook :=
  ⟨41, "b", "b.py", "ca", .ircRaw, [], none, true, ["*"], [], [], [], true, false⟩

/-- An event hook of plugin `b` for event type 1. -/
def hookC4ev : Hook :=
  ⟨42, "b", "b.py", "ev", .event, [], none, true, [], [1], [], [], true, false⟩

/-- A regex hook of plugin `b` with pattern id 5. -/
def hookC4rx : Hook :=
  ⟨43, "b", "b.py", "rx", .regex, [], none, true, [], [], [5], [], true, false⟩

/-- A sieve hook of plugin `b`. -/
def hookC4sv : Hook :=
  ⟨44, "b", "b.py", "sv", .sieve, [], none, true, [], [], [], [], true, false⟩

/-- A command hook of plugin `b` with aliases `x` (lost to a conflict) and
`z` (owned). -/
def hookC4cmd : Hook :=
  ⟨45, "b", "b.py", "cmd", .command, ["x", "z"], none, true, [], [], [], [], true, false⟩

/-- Plugin `b` with one hook of every kind and one table. -/
def pluginC4 : Plugin :=
  ⟨"/abs/b.py", "b.py", "b", [hookC4cmd], [hookC4rx], [hookC4raw, hookC4ca],
    [hookC4sv], [hookC4ev], [], [], ["tb"]⟩

/-- A registry in which plugin `b` is fully registered alongside plugin `a`
(which won the conflicting alias `x`, and owns another `PRIVMSG` raw hook). -/
def stC4 : Registry :=
  ⟨[("a.py", pluginC2old), ("b.py", pluginC4)],
    [("x", hookC2), ("z", hookC4cmd)],
    [("PRIVMSG", [hookC4raw])],
    [hookC4ca],
    [(1, [hookC4ev])],
    [(5, hookC4rx)],
    [hookC4sv]⟩

/-! ## Association-list lemmas -/

section AssocLemmas

variable {κ : Type} {β : Type} [DecidableEq κ]

theorem lookupA_insertA_self (l : List (κ × β)) (k : κ) (v : β) :
    lookupA (insertA l k v) k = some v := by
  induction l with
  | nil => simp [insertA, lookupA]
  | cons hd tl ih =>
    by_cases h : hd.1 = k
    · simp [insertA, h, lookupA]
    · simp [insertA, h, lookupA, ih]

theorem lookupA_insertA_ne (l : List (κ × β)) (k k' : κ) (v : β) (h : k' ≠ k) :
    lookupA (insertA l k v) k' = lookupA l k' := by
  induction l with
  | nil =>
    simp only [insertA, lookupA]
    rw [if_neg (fun hh : k = k' => h hh.symm)]
  | cons hd tl ih =>
    by_cases hk : hd.1 = k
    · simp only [insertA, if_pos hk, lookupA]
      rw [if_neg (fun hh : k = k' => h hh.symm),
        if_neg (fun hh : hd.1 = k' => h (hk.symm.trans hh).symm)]
    · simp only [insertA, if_neg hk, lookupA]
      by_cases hk' : hd.1 = k'
      · rw [if_pos hk', if_pos hk']
      · rw [if_neg hk', if_neg hk']
        exact ih

theorem lookupA_eraseA_ne (l : List (κ × β)) (k k' : κ) (h : k' ≠ k) :
    lookupA (eraseA l k) k' = lookupA l k' := by
  induction l with
  | nil => simp [eraseA]
  | cons hd tl ih =>
    by_cases hk : hd.1 = k
    · simp only [eraseA, if_pos hk, lookupA]
      rw [if_neg (fun hh : hd.1 = k' => h (hk.symm.trans hh).symm)]
    · simp only [eraseA, if_neg hk, lookupA]
      by_cases hk' : hd.1 = k'
      · rw [if_pos hk', if_pos hk']
      · rw [if_neg hk', if_neg hk']
        exact ih

theorem keyNotMem_lookupA_eq_none (l : List (κ × β)) (k : κ)
    (h : k ∉ l.map Prod.fst) : lookupA l k = none := by
  induction l with
  | nil => rfl
  | cons hd tl ih =>
    simp only [List.map_cons, List.mem_cons] at h
    push_neg at h
    simp only [lookupA]
    rw [if_neg (fun hh : hd.1 = k => h.1 hh.symm)]
    exact ih h.2

theorem lookupA_eraseA_self (l : List (κ × β)) (k : κ) (h : keysNodup l) :
    lookupA (eraseA l k) k = none := by
  induction l with
  | nil => rfl
  | cons hd tl ih =>
    simp only [keysNodup, List.map_cons, List.nodup_cons] at h
    by_cases hk : hd.1 = k
    · simp only [eraseA, if_pos hk]
      exact keyNotMem_lookupA_eq_none tl k (hk ▸ h.1)
    · simp only [eraseA, if_neg hk, lookupA]
      exact ih h.2

theorem mem_keys_insertA (l : List (κ × β)) (k : κ) (v : β) (x : κ)
    (h : x ∈ (insertA l k v).map Prod.fst) : x ∈ l.map Prod.fst ∨ x = k := by
  induction l with
  | nil =>
    simp only [insertA, List.map_cons, List.map_nil, List.mem_singleton] at h
    exact Or.inr h
  | cons hd tl ih =>
    by_cases hk : hd.1 = k
    · simp only [insertA, if_pos hk, List.map_cons, List.mem_cons] at h
      simp only [List.map_cons, List.mem_cons]
      rcases h with h1 | h2
      · exact Or.inr h1
      · exact Or.inl (Or.inr h2)
    · simp only [insertA, if_neg hk, List.map_cons, List.mem_cons] at h
      simp only [List.map_cons, List.mem_cons]
      rcases h with h1 | h2
      · exact Or.inl (Or.inl h1)
      · rcases ih h2 with h3 | h4
        · exact Or.inl (Or.inr h3)
        · exact Or.inr h4

theorem mem_keys_eraseA (l : List (κ × β)) (k : κ) (x : κ)
    (h : x ∈ (eraseA l k).map Prod.fst) : x ∈ l.map Prod.fst := by
  induction l with
  | nil => exact h
  | cons hd tl ih =>
    by_cases hk : hd.1 = k
    · simp only [eraseA, if_pos hk] at h
      simp only [List.map_cons, List.mem_cons]
      exact Or.inr h
    · simp only [eraseA, if_neg hk, List.map_cons, List.mem_cons] at h
      simp only [List.map_cons, List.mem_cons]
      rcases h with h1 | h2
      · exact Or.inl h1
      · exact Or.inr (ih h2)

theorem keysNodup_insertA (l : List (κ × β)) (k : κ) (v : β) (h : keysNodup l) :
    keysNodup (insertA l k v) := by
  induction l with
  | nil => simp [insertA, keysNodup]
  | cons hd tl ih =>
    simp only [keysNodup, List.map_cons, List.nodup_cons] at h
    by_cases hk : hd.1 = k
    · simp only [insertA, if_pos hk, keysNodup, List.map_cons, List.nodup_cons]
      exact ⟨hk ▸ h.1, h.2⟩
    · simp only [insertA, if_neg hk, keysNodup, List.map_cons, List.nodup_cons]
      refine ⟨fun hmem => ?_, ih h.2⟩
      rcases mem_keys_insertA tl k v hd.1 hmem with h1 | h2
      · exact h.1 h1
      · exact hk h2

theorem keysNodup_eraseA (l : List (κ × β)) (k : κ) (h : keysNodup l) :
    keysNodup (eraseA l k) := by
  induction l with
  | nil => exact h
  | cons hd tl ih =>
    simp only [keysNodup, List.map_cons, List.nodup_cons] at h
    by_cases hk : hd.1 = k
    · simp only [eraseA, if_pos hk]
      exact h.2
    · simp only [eraseA, if_neg hk, keysNodup, List.map_cons, List.nodup_cons]
      exact ⟨fun hmem => h.1 (mem_keys_eraseA tl k hd.1 hmem), ih h.2⟩

theorem lookupA_of_mem_nodup (l : List (κ × β)) (k : κ) (v : β)
    (hnd : keysNodup l) (h : (k, v) ∈ l) : lookupA l k = some v := by
  induction l with
  | nil => cases h
  | cons hd tl ih =>
    simp only [keysNodup, List.map_cons, List.nodup_cons] at hnd
    rcases List.mem_cons.mp h with h1 | h1
    · subst h1
      simp [lookupA]
    · have hk : hd.1 ≠ k := by
        intro he
        apply hnd.1
        rw [he]
        exact List.mem_map_of_mem Prod.fst h1
      simp only [lookupA, if_neg hk]
      exact ih hnd.2 h1

theorem lookupA_mem (l : List (κ × β)) (k : κ) (v : β) (h : lookupA l k = some v) :
    (k, v) ∈ l := by
  induction l with
  | nil => simp [lookupA] at h
  | cons hd tl ih =>
    by_cases hk : hd.1 = k
    · simp only [lookupA, if_pos hk, Option.some.injEq] at h
      have : hd = (k, v) := by
        cases hd
        simp only [Prod.mk.injEq]
        exact ⟨hk, h⟩
      exact this ▸ List.mem_cons_self _ _
    · simp only [lookupA, if_neg hk] at h
      exact List.mem_cons_of_mem _ (ih h)

end AssocLemmas

/-! ## Count and erase lemmas -/

section CountLemmas

variable {α : Type} [DecidableEq α]

theorem countE_pos_iff {l : List α} {a : α} : 0 < countE l a ↔ a ∈ l := by
  induction l with
  | nil => simp [countE]
  | cons x xs ih =>
    by_cases hx : x = a
    · subst hx
      simp [countE]
    · have hax : ¬ a = x := fun he => hx he.symm
      simp [countE, hx, List.mem_cons, hax, ih]

theorem countE_eq_zero {l : List α} {a : α} : countE l a = 0 ↔ a ∉ l := by
  constructor
  · intro h hmem
    have := countE_pos_iff.mpr hmem
    omega
  · intro h
    by_contra h0
    exact h (countE_pos_iff.mp (Nat.pos_of_ne_zero h0))

theorem countE_eraseFirst_self (l : List α) (a : α) :
    countE (eraseFirst l a) a = countE l a - 1 := by
  induction l with
  | nil => rfl
  | cons x xs ih =>
    by_cases hx : x = a
    · simp [eraseFirst, countE, hx]
    · simp [eraseFirst, countE, hx, ih]

theorem countE_eraseFirst_ne (l : List α) (a : α) {b : α} (h : b ≠ a) :
    countE (eraseFirst l a) b = countE l b := by
  induction l with
  | nil => rfl
  | cons x xs ih =>
    by_cases hx : x = a
    · subst hx
      have : ¬ x = b := fun he => h he.symm
      simp [eraseFirst, countE, this]
    · simp [eraseFirst, countE, hx, ih]

theorem eraseFirst_subset (l : List α) (a x : α) (h : x ∈ eraseFirst l a) : x ∈ l := by
  induction l with
  | nil => cases h
  | cons hd tl ih =>
    by_cases hhd : hd = a
    · simp only [eraseFirst, if_pos hhd] at h
      exact List.mem_cons_of_mem _ h
    · simp only [eraseFirst, if_neg hhd] at h
      rcases List.mem_cons.mp h with h1 | h1
      · exact h1 ▸ List.mem_cons_self _ _
      · exact List.mem_cons_of_mem _ (ih h1)

end CountLemmas

/-! ## Dispatch lemmas -/

theorem prepareArgsList_eq_none (event : Event) (l : List String) (a : String)
    (ha : a ∈ l) (hmiss : lookupA event.attrs a = none) :
    prepareArgsList event l = none := by
  induction l with
  | nil => cases ha
  | cons hd tl ih =>
    rcases List.mem_cons.mp ha with h1 | h2
    · subst h1
      simp [prepareArgsList, hmiss]
    · cases hhd : lookupA event.attrs hd with
      | none => simp [prepareArgsList, hhd]
      | some v => simp [prepareArgsList, hhd, ih h2]

theorem sievePass_actions (env : Env) (s hook : Hook) (e : Event) (a : Action)
    (h : a ∈ (sievePass env s hook e).2) :
    a = .invokeSieve s.hookId ∨ a = .logSieveError s.descr hook.descr := by
  unfold sievePass at h
  cases hb : env.sieveBehavior s.hookId e with
  | raise =>
    rw [hb] at h
    simpa using h
  | ret r =>
    rw [hb] at h
    simp at h
    exact Or.inl h

theorem runSieves_actions (env : Env) (hook : Hook) :
    ∀ (sieves : List Hook) (e : Event) (a : Action),
      a ∈ (runSieves env hook sieves e).2 →
      ∃ s, s ∈ sieves ∧
        (a = .invokeSieve s.hookId ∨ a = .logSieveError s.descr hook.descr) := by
  intro sieves
  induction sieves with
  | nil =>
    intro e a h
    simp [runSieves] at h
  | cons s rest ih =>
    intro e a h
    unfold runSieves at h
    rcases hsp : sievePass env s hook e with ⟨r, trS⟩
    rw [hsp] at h
    cases r with
    | none =>
      simp only at h
      exact ⟨s, List.mem_cons_self _ _, sievePass_actions env s hook e a (hsp ▸ h)⟩
    | some e' =>
      simp only at h
      rcases List.mem_append.mp h with h1 | h2
      · exact ⟨s, List.mem_cons_self _ _, sievePass_actions env s hook e a (hsp ▸ h1)⟩
      · obtain ⟨s', hs', hshape⟩ := ih e' a h2
        exact ⟨s', List.mem_cons_of_mem _ hs', hshape⟩

theorem runSieves_no_invokeHook (env : Env) (hook : Hook) (sieves : List Hook)
    (e : Event) (i : Nat) : Action.invokeHook i ∉ (runSieves env hook sieves e).2 := by
  intro h
  obtain ⟨s, _, h1 | h1⟩ := runSieves_actions env hook sieves e _ h <;> exact Action.noConfusion h1

theorem runSieves_no_noticeDoc (env : Env) (hook : Hook) (sieves : List Hook)
    (e : Event) : Action.noticeDoc ∉ (runSieves env hook sieves e).2 := by
  intro h
  obtain ⟨s, _, h1 | h1⟩ := runSieves_actions env hook sieves e _ h <;> exact Action.noConfusion h1

theorem runSieves_sieve_sources (env : Env) (hook : Hook) (sieves : List Hook)
    (e : Event) (j : Nat) (h : Action.invokeSieve j ∈ (runSieves env hook sieves e).2) :
    ∃ s, s ∈ sieves ∧ j = s.hookId := by
  obtain ⟨s, hs, h1 | h1⟩ := runSieves_actions env hook sieves e _ h
  · cases h1
    exact ⟨s, hs, rfl⟩
  · exact Action.noConfusion h1

theorem runSieves_append (env : Env) (hook : Hook) (pre rest : List Hook) :
    ∀ (e e' : Event) (tr : List Action),
      runSieves env hook pre e = (some e', tr) →
      runSieves env hook (pre ++ rest) e =
        ((runSieves env hook rest e').1, tr ++ (runSieves env hook rest e').2) := by
  induction pre with
  | nil =>
    intro e e' tr h
    simp only [runSieves, Prod.mk.injEq, Option.some.injEq] at h
    obtain ⟨he, htr⟩ := h
    subst he
    subst htr
    simp only [List.nil_append, List.nil_append]
  | cons s ps ih =>
    intro e e' tr h
    rw [List.cons_append]
    cases hb : env.sieveBehavior s.hookId e with
    | raise =>
      simp only [runSieves, sievePass, hb] at h
      exact absurd h (by simp)
    | ret r =>
      cases r with
      | none =>
        simp only [runSieves, sievePass, hb] at h
        exact absurd h (by simp)
      | some e₁ =>
        simp only [runSieves, sievePass, hb, Prod.mk.injEq] at h ⊢
        obtain ⟨h1, h2⟩ := h
        have hps : runSieves env hook ps e₁ = (some e', (runSieves env hook ps e₁).2) := by
          conv_lhs => rw [← Prod.mk.eta (p := runSieves env hook ps e₁)]
          rw [h1]
        rw [ih e₁ e' _ hps]
        rw [← h2]
        simp [List.append_assoc]

theorem launchC_reject (env : Env) (sieves : List Hook) (hook : Hook) (event : Event)
    (tr : List Action) (hkC : hook.kind ≠ .onload)
    (h : runSieves env hook sieves event = (none, tr)) :
    launchC env sieves hook event = (.ok false, tr) := by
  simp [launchC, if_neg hkC, h]

theorem launchO_reject (env : Env) (sieves : List Hook) (hook : Hook) (event : Event)
    (tr : List Action) (hkO1 : hook.kind ≠ .onStart) (hkO2 : hook.kind ≠ .onStop)
    (h : runSieves env hook sieves event = (none, tr)) :
    launchO env sieves hook event = (.ok false, tr) := by
  have : ¬ (hook.kind = .onStart ∨ hook.kind = .onStop) := by
    rintro (h1 | h1) <;> [exact hkO1 h1; exact hkO2 h1]
  simp [launchO, if_neg this, h]

theorem launchC_help (env : Env) (sieves : List Hook) (hook : Hook) (event e' : Event)
    (tr : List Action) (hkC : hook.kind ≠ .onload)
    (h : runSieves env hook sieves event = (some e', tr)) (hc : helpCond hook e') :
    launchC env sieves hook event = (.ok false, tr ++ [.noticeDoc]) := by
  simp [launchC, if_neg hkC, h, if_pos hc]

theorem launchO_help (env : Env) (sieves : List Hook) (hook : Hook) (event e' : Event)
    (tr : List Action) (hkO1 : hook.kind ≠ .onStart) (hkO2 : hook.kind ≠ .onStop)
    (h : runSieves env hook sieves event = (some e', tr)) (hc : helpCond hook e') :
    launchO env sieves hook event = (.ok false, tr ++ [.noticeDoc]) := by
  have hlc : ¬ (hook.kind = .onStart ∨ hook.kind = .onStop) := by
    rintro (h1 | h1) <;> [exact hkO1 h1; exact hkO2 h1]
  simp [launchO, if_neg hlc, h, if_pos hc]

theorem launchC_exec (env : Env) (sieves : List Hook) (hook : Hook) (event e' : Event)
    (tr : List Action) (hkC : hook.kind ≠ .onload)
    (h : runSieves env hook sieves event = (some e', tr)) (hnh : ¬ helpCond hook e') :
    launchC env sieves hook event =
      ((executeHookC env hook e').1, tr ++ (executeHookC env hook e').2) := by
  rcases hex : executeHookC env hook e' with ⟨r, tr'⟩
  simp [launchC, if_neg hkC, h, if_neg hnh, hex]

theorem launchO_exec (env : Env) (sieves : List Hook) (hook : Hook) (event e' : Event)
    (tr : List Action) (hkO1 : hook.kind ≠ .onStart) (hkO2 : hook.kind ≠ .onStop)
    (h : runSieves env hook sieves event = (some e', tr)) (hnh : ¬ helpCond hook e') :
    launchO env sieves hook event =
      ((executeHookO env hook e').1, tr ++ (executeHookO env hook e').2) := by
  have hlc : ¬ (hook.kind = .onStart ∨ hook.kind = .onStop) := by
    rintro (h1 | h1) <;> [exact hkO1 h1; exact hkO2 h1]
  rcases hex : executeHookO env hook e' with ⟨r, tr'⟩
  simp [launchO, if_neg hlc, h, if_neg hnh, hex]

theorem launchC_nil (env : Env) (hook : Hook) (event : Event)
    (hnh : ¬ helpCond hook event) :
    launchC env [] hook event =
      ((executeHookC env hook event).1, (executeHookC env hook event).2) := by
  rcases hex : executeHookC env hook event with ⟨r, tr'⟩
  unfold launchC
  have : (if hook.kind = .onload then (some event, ([] : List Action))
      else runSieves env hook [] event) = (some event, []) := by
    split <;> rfl
  rw [this]
  simp [if_neg hnh, hex]

theorem launchO_nil (env : Env) (hook : Hook) (event : Event)
    (hnh : ¬ helpCond hook event) :
    launchO env [] hook event =
      ((executeHookO env hook event).1, (executeHookO env hook event).2) := by
  rcases hex : executeHookO env hook event with ⟨r, tr'⟩
  unfold launchO
  have : (if hook.kind = .onStart ∨ hook.kind = .onStop then (some event, ([] : List Action))
      else runSieves env hook [] event) = (some event, []) := by
    split <;> rfl
  rw [this]
  simp [if_neg hnh, hex]

/-! ## Claim C1 -/

/-- C1 counterexample: a hook requiring `chan` dispatched against an event
without `chan`.  The cloudbot `launch` logs the missing parameter and never
invokes the callable, but returns success (`True`, as the inner helper's
`None` falls through `if out is not None` to `return True`), contradicting the
claim that `launch` returns failure (`False`) to its caller. -/
theorem c1_counterexample :
    hookC1.requiredArgs = ["chan"] ∧ lookupA eventC1.attrs "chan" = none ∧
    launchC envC1 [] hookC1 eventC1 =
      (.ok true, [.logMissingParam "p1:f1" "chan"]) := by
  exact ⟨rfl, rfl, by decide⟩

/-- C1 (amended): for every hook whose `required_args` contains a name the
dispatched event does not expose, `launch` logs the missing-parameter
configuration error naming the hook and the (first) missing parameter, and
the hook's callable is never invoked, in both variants; the obrbot `launch`
returns failure (`False`), while the cloudbot `launch` returns success
(`True`). -/
theorem c1_missing_param (env : Env) (hook : Hook) (event : Event) (a : String)
    (hnh : ¬ helpCond hook event)
    (ha : a ∈ hook.requiredArgs) (hmiss : lookupA event.attrs a = none) :
    ∃ a₀, a₀ ∈ hook.requiredArgs ∧ lookupA event.attrs a₀ = none ∧
      launchC env [] hook event = (.ok true, [.logMissingParam hook.descr a₀]) ∧
      launchO env [] hook event = (.ok false, [.logMissingParam hook.descr a₀]) ∧
      ∀ i, Action.invokeHook i ∉ [Action.logMissingParam hook.descr a₀] := by
  have hex : (hook.requiredArgs.find? fun x => (lookupA event.attrs x).isNone).isSome := by
    rw [List.find?_isSome]
    exact ⟨a, ha, by rw [hmiss]; rfl⟩
  obtain ⟨a₀, ha₀⟩ := Option.isSome_iff_exists.mp hex
  have ha₀mem := List.mem_of_find?_eq_some ha₀
  have ha₀p : (lookupA event.attrs a₀).isNone = true := by
    have := List.find?_some ha₀
    simpa using this
  have ha₀none : lookupA event.attrs a₀ = none :=
    Option.isNone_iff_eq_none.mp ha₀p
  have hprep : prepareParameters hook event = none :=
    prepareArgsList_eq_none event hook.requiredArgs a₀ ha₀mem ha₀none
  have hfm : firstMissingArg hook event = some a₀ := ha₀
  have hC : executeHookC env hook event = (.ok true, [.logMissingParam hook.descr a₀]) := by
    simp [executeHookC, hprep, hfm]
  have hO : executeHookO env hook event = (.ok false, [.logMissingParam hook.descr a₀]) := by
    simp [executeHookO, hprep, hfm]
  refine ⟨a₀, ha₀mem, ha₀none, ?_, ?_, ?_⟩
  · rw [launchC_nil env hook event hnh, hC]
  · rw [launchO_nil env hook event hnh, hO]
  · intro i h
    simp at h

/-- C1 witness: the amended theorem applied to the concrete hook and event of
the counterexample. -/
theorem c1_missing_param_witness :
    (¬ helpCond hookC1 eventC1 ∧ "chan" ∈ hookC1.requiredArgs ∧
      lookupA eventC1.attrs "chan" = none) ∧
    (∃ a₀, a₀ ∈ hookC1.requiredArgs ∧ lookupA eventC1.attrs a₀ = none ∧
      launchC envC1 [] hookC1 eventC1 = (.ok true, [.logMissingParam hookC1.descr a₀]) ∧
      launchO envC1 [] hookC1 eventC1 = (.ok false, [.logMissingParam hookC1.descr a₀]) ∧
      ∀ i, Action.invokeHook i ∉ [Action.logMissingParam hookC1.descr a₀]) :=
  ⟨⟨by decide, by decide, rfl⟩,
    c1_missing_param envC1 hookC1 eventC1 "chan" (by decide) (by decide) rfl⟩

/-! ## Claim C5 -/

/-- C5: when some sieve (at any position of the registration order) produces
no event, both `launch` variants return failure with the trace accumulated up
to and including that sieve; no documentation notice is sent (the help-check
is not reached), no hook callable is ever invoked, and no later sieve is
applied. -/
theorem c5_sieve_rejects (env : Env) (pre post : List Hook) (s hook : Hook)
    (event e' : Event) (trPre trS : List Action)
    (hkC : hook.kind ≠ .onload) (hkO1 : hook.kind ≠ .onStart) (hkO2 : hook.kind ≠ .onStop)
    (hpre : runSieves env hook pre event = (some e', trPre))
    (hrej : sievePass env s hook e' = (none, trS)) :
    launchC env (pre ++ s :: post) hook event = (.ok false, trPre ++ trS) ∧
    launchO env (pre ++ s :: post) hook event = (.ok false, trPre ++ trS) ∧
    Action.noticeDoc ∉ trPre ++ trS ∧
    (∀ i, Action.invokeHook i ∉ trPre ++ trS) ∧
    (∀ s', s' ∈ post → s'.hookId ∉ pre.map Hook.hookId → s'.hookId ≠ s.hookId →
      Action.invokeSieve s'.hookId ∉ trPre ++ trS) := by
  have hrest : runSieves env hook (s :: post) e' = (none, trS) := by
    unfold runSieves
    rw [hrej]
  have hall : runSieves env hook (pre ++ s :: post) event = (none, trPre ++ trS) := by
    rw [runSieves_append env hook pre (s :: post) event e' trPre hpre, hrest]
  refine ⟨launchC_reject _ _ _ _ _ hkC hall, launchO_reject _ _ _ _ _ hkO1 hkO2 hall,
    ?_, ?_, ?_⟩
  · intro h
    rcases List.mem_append.mp h with h1 | h1
    · exact runSieves_no_noticeDoc env hook pre event (by rw [hpre]; exact h1)
    · obtain (h2 | h2) := sievePass_actions env s hook e' _ (by rw [hrej]; exact h1) <;>
        exact Action.noConfusion h2
  · intro i h
    rcases List.mem_append.mp h with h1 | h1
    · exact runSieves_no_invokeHook env hook pre event i (by rw [hpre]; exact h1)
    · obtain (h2 | h2) := sievePass_actions env s hook e' _ (by rw [hrej]; exact h1) <;>
        exact Action.noConfusion h2
  · intro s' _ hnotpre hnots h
    rcases List.mem_append.mp h with h1 | h1
    · obtain ⟨s₂, hs₂, heq⟩ :=
        runSieves_sieve_sources env hook pre event s'.hookId (by rw [hpre]; exact h1)
      exact hnotpre (by rw [heq]; exact List.mem_map_of_mem Hook.hookId hs₂)
    · obtain (h2 | h2) := sievePass_actions env s hook e' _ (by rw [hrej]; exact h1)
      · injection h2 with h3
        exact hnots h3
      · exact Action.noConfusion h2

/-- C5 witness: the rejecting sieve 10 stops a dispatch to a raw-trigger hook
before the later sieve 11 and before execution. -/
theorem c5_sieve_rejects_witness :
    (hookC5.kind ≠ HookKind.onload ∧ hookC5.kind ≠ HookKind.onStart ∧
      hookC5.kind ≠ HookKind.onStop ∧
      runSieves envC5 hookC5 [] eventC5 = (some eventC5, []) ∧
      sievePass envC5 sieveC5 hookC5 eventC5 = (none, [.invokeSieve 10])) ∧
    (launchC envC5 ([] ++ sieveC5 :: [sieveC5b]) hookC5 eventC5 =
        (.ok false, [] ++ [.invokeSieve 10]) ∧
      launchO envC5 ([] ++ sieveC5 :: [sieveC5b]) hookC5 eventC5 =
        (.ok false, [] ++ [.invokeSieve 10]) ∧
      Action.noticeDoc ∉ [] ++ [Action.invokeSieve 10] ∧
      (∀ i, Action.invokeHook i ∉ [] ++ [Action.invokeSieve 10]) ∧
      (∀ s', s' ∈ [sieveC5b] → s'.hookId ∉ ([] : List Hook).map Hook.hookId →
        s'.hookId ≠ sieveC5.hookId →
        Action.invokeSieve s'.hookId ∉ [] ++ [Action.invokeSieve 10])) :=
  ⟨⟨by decide, by decide, by decide, rfl, rfl⟩,
    c5_sieve_rejects envC5 [] [sieveC5b] sieveC5 hookC5 eventC5 eventC5 [] [.invokeSieve 10]
      (by decide) (by decide) (by decide) rfl rfl⟩

/-! ## Claim C7 -/

/-- C7: `launch` never propagates an exception raised by a sieve callable or
by the hook's callable.  A sieve-execution exception is caught, logged naming
both the sieve and the target hook, and treated as rejection (failure); a
hook-execution exception is caught, logged naming the hook, and `launch`
returns failure.  In both scenarios and both variants the result is an
ordinary `.ok false`, not a propagated exception. -/
theorem c7_exceptions_contained (env : Env) (pre post sieves : List Hook) (s hook : Hook)
    (event e₁ e₂ : Event) (ps : List String) (tr₁ tr₂ : List Action)
    (hkC : hook.kind ≠ .onload) (hkO1 : hook.kind ≠ .onStart) (hkO2 : hook.kind ≠ .onStop) :
    (runSieves env hook pre event = (some e₁, tr₁) →
      env.sieveBehavior s.hookId e₁ = .raise →
      launchC env (pre ++ s :: post) hook event =
        (.ok false, tr₁ ++ [.invokeSieve s.hookId, .logSieveError s.descr hook.descr]) ∧
      launchO env (pre ++ s :: post) hook event =
        (.ok false, tr₁ ++ [.invokeSieve s.hookId, .logSieveError s.descr hook.descr])) ∧
    (runSieves env hook sieves event = (some e₂, tr₂) →
      ¬ helpCond hook e₂ →
      prepareParameters hook e₂ = some ps →
      env.hookBehavior hook.hookId ps = .raise →
      launchC env sieves hook event =
        (.ok false, tr₂ ++ [.invokeHook hook.hookId, .logHookError hook.descr]) ∧
      launchO env sieves hook event =
        (.ok false, tr₂ ++ [.invokeHook hook.hookId, .logHookError hook.descr])) := by
  constructor
  · intro hpre hraise
    have hrej : sievePass env s hook e₁ =
        (none, [.invokeSieve s.hookId, .logSieveError s.descr hook.descr]) := by
      simp [sievePass, hraise]
    have hrest : runSieves env hook (s :: post) e₁ =
        (none, [.invokeSieve s.hookId, .logSieveError s.descr hook.descr]) := by
      unfold runSieves
      rw [hrej]
    have hall : runSieves env hook (pre ++ s :: post) event =
        (none, tr₁ ++ [.invokeSieve s.hookId, .logSieveError s.descr hook.descr]) := by
      rw [runSieves_append env hook pre (s :: post) event e₁ tr₁ hpre, hrest]
    exact ⟨launchC_reject _ _ _ _ _ hkC hall, launchO_reject _ _ _ _ _ hkO1 hkO2 hall⟩
  · intro hsv hnh hps hraise
    have hC : executeHookC env hook e₂ =
        (.ok false, [.invokeHook hook.hookId, .logHookError hook.descr]) := by
      simp [executeHookC, hps, hraise]
    have hO : executeHookO env hook e₂ =
        (.ok false, [.invokeHook hook.hookId, .logHookError hook.descr]) := by
      simp [executeHookO, hps, hraise]
    constructor
    · rw [launchC_exec env sieves hook event e₂ tr₂ hkC hsv hnh, hC]
    · rw [launchO_exec env sieves hook event e₂ tr₂ hkO1 hkO2 hsv hnh, hO]

/-- C7 witness: the theorem applied twice at concrete inputs, once with the
raising sieve 12 and once with a raising hook callable and no sieves. -/
theorem c7_exceptions_contained_witness :
    (launchC envC7 ([] ++ sieveC7 :: []) hookC7 eventC7 =
        (.ok false, [] ++ [.invokeSieve 12, .logSieveError sieveC7.descr hookC7.descr]) ∧
      launchO envC7 ([] ++ sieveC7 :: []) hookC7 eventC7 =
        (.ok false, [] ++ [.invokeSieve 12, .logSieveError sieveC7.descr hookC7.descr])) ∧
    (launchC envC7 [] hookC7 eventC7 =
        (.ok false, [] ++ [.invokeHook hookC7.hookId, .logHookError hookC7.descr]) ∧
      launchO envC7 [] hookC7 eventC7 =
        (.ok false, [] ++ [.invokeHook hookC7.hookId, .logHookError hookC7.descr])) :=
  ⟨(c7_exceptions_contained envC7 [] [] [] sieveC7 hookC7 eventC7 eventC7 eventC7 [] [] []
      (by decide) (by decide) (by decide)).1 rfl rfl,
    (c7_exceptions_contained envC7 [] [] [] sieveC7 hookC7 eventC7 eventC7 eventC7 [] [] []
      (by decide) (by decide) (by decide)).2 rfl (by decide) rfl rfl⟩

/-! ## Claim C8 -/

/-- C8 counterexample: a hook returning a non-sequence value whose `str()` is
`"a\nb"`.  The obrbot variant does not send the stringified value as a single
reply: it splits it on the newline and passes the two pieces `["a", "b"]` to
the reply call. -/
theorem c8_counterexample :
    launchO envC8b [] hookC8 eventC8 = (.ok true, [.invokeHook 7, .reply ["a", "b"]]) ∧
    Action.reply ["a\nb"] ∉ [Action.invokeHook 7, Action.reply ["a", "b"]] := by
  exact ⟨by decide, by decide⟩

/-- C8 (amended): on success with a non-null result — for a list/tuple
result, cloudbot sends the first element via the primary reply call and each
remaining element as a follow-up `event.message` line, while obrbot passes
the whole sequence to a single `event.reply(*out)` call; for any other
non-null result, cloudbot sends the stringified value as a single reply,
while obrbot splits the stringified value on newlines and passes the pieces
to a single reply call. -/
theorem c8_reply_shapes (env : Env) (sieves : List Hook) (hook : Hook)
    (event e' : Event) (tr : List Action) (ps : List String)
    (hkC : hook.kind ≠ .onload) (hkO1 : hook.kind ≠ .onStart) (hkO2 : hook.kind ≠ .onStop)
    (hsv : runSieves env hook sieves event = (some e', tr))
    (hnh : ¬ helpCond hook e') (hps : prepareParameters hook e' = some ps) :
    (∀ x rest, env.hookBehavior hook.hookId ps = .ret (some (.seq (x :: rest))) →
      launchC env sieves hook event =
        (.ok true, tr ++ ([.invokeHook hook.hookId, .reply [x]] ++ rest.map .message)) ∧
      launchO env sieves hook event =
        (.ok true, tr ++ [.invokeHook hook.hookId, .reply (x :: rest)])) ∧
    (∀ s', env.hookBehavior hook.hookId ps = .ret (some (.other s')) →
      launchC env sieves hook event =
        (.ok true, tr ++ [.invokeHook hook.hookId, .reply [s']]) ∧
      launchO env sieves hook event =
        (.ok true, tr ++ [.invokeHook hook.hookId, .reply (splitNl s')])) := by
  constructor
  · intro x rest hb
    have hC : executeHookC env hook e' =
        (.ok true, [.invokeHook hook.hookId, .reply [x]] ++ rest.map .message) := by
      simp [executeHookC, hps, hb]
    have hO : executeHookO env hook e' =
        (.ok true, [.invokeHook hook.hookId, .reply (x :: rest)]) := by
      simp [executeHookO, hps, hb]
    constructor
    · rw [launchC_exec env sieves hook event e' tr hkC hsv hnh, hC]
    · rw [launchO_exec env sieves hook event e' tr hkO1 hkO2 hsv hnh, hO]
  · intro s' hb
    have hC : executeHookC env hook e' =
        (.ok true, [.invokeHook hook.hookId, .reply [s']]) := by
      simp [executeHookC, hps, hb]
    have hO : executeHookO env hook e' =
        (.ok true, [.invokeHook hook.hookId, .reply (splitNl s')]) := by
      simp [executeHookO, hps, hb]
    constructor
    · rw [launchC_exec env sieves hook event e' tr hkC hsv hnh, hC]
    · rw [launchO_exec env sieves hook event e' tr hkO1 hkO2 hsv hnh, hO]

/-- C8 witness: the amended theorem applied twice, for a sequence result
(`["a", "b"]`, environment `envC8a`) and for a plain string result
(`"a\nb"`, environment `envC8b`). -/
theorem c8_reply_shapes_witness :
    (launchC envC8a [] hookC8 eventC8 =
        (.ok true, [] ++ ([.invokeHook hookC8.hookId, .reply ["a"]] ++ ["b"].map .message)) ∧
      launchO envC8a [] hookC8 eventC8 =
        (.ok true, [] ++ [.invokeHook hookC8.hookId, .reply ("a" :: ["b"])])) ∧
    (launchC envC8b [] hookC8 eventC8 =
        (.ok true, [] ++ [.invokeHook hookC8.hookId, .reply ["a\nb"]]) ∧
      launchO envC8b [] hookC8 eventC8 =
        (.ok true, [] ++ [.invokeHook hookC8.hookId, .reply (splitNl "a\nb")])) :=
  ⟨(c8_reply_shapes envC8a [] hookC8 eventC8 eventC8 [] []
      (by decide) (by decide) (by decide) rfl (by decide) rfl).1 "a" ["b"] rfl,
    (c8_reply_shapes envC8b [] hookC8 eventC8 eventC8 [] []
      (by decide) (by decide) (by decide) rfl (by decide) rfl).2 "a\nb" rfl⟩

/-! ## Claim C9 -/

/-- C9: a command hook with auto-help enabled and a (non-empty) doc string,
dispatched with empty invocation text, short-circuits in both variants: the
documentation notice is sent, `launch` returns failure, and the hook's
callable is never invoked. -/
theorem c9_auto_help (env : Env) (sieves : List Hook) (hook : Hook)
    (event e' : Event) (tr : List Action) (d : String)
    (hkind : hook.kind = .command) (hah : hook.autoHelp = true)
    (hdoc : hook.doc = some d) (_hdne : d ≠ "")
    (hsv : runSieves env hook sieves event = (some e', tr))
    (htext : e'.textFalsy = true) :
    launchC env sieves hook event = (.ok false, tr ++ [.noticeDoc]) ∧
    launchO env sieves hook event = (.ok false, tr ++ [.noticeDoc]) ∧
    ∀ i, Action.invokeHook i ∉ tr ++ [Action.noticeDoc] := by
  have hc : helpCond hook e' := ⟨hkind, hah, htext, by rw [hdoc]; simp⟩
  have hkC : hook.kind ≠ .onload := by rw [hkind]; simp
  have hkO1 : hook.kind ≠ .onStart := by rw [hkind]; simp
  have hkO2 : hook.kind ≠ .onStop := by rw [hkind]; simp
  refine ⟨launchC_help env sieves hook event e' tr hkC hsv hc,
    launchO_help env sieves hook event e' tr hkO1 hkO2 hsv hc, ?_⟩
  intro i h
  rcases List.mem_append.mp h with h1 | h1
  · exact runSieves_no_invokeHook env hook sieves event i (by rw [hsv]; exact h1)
  · simp at h1

/-- C9 witness: the theorem applied to a concrete auto-help command hook
dispatched with empty text and no sieves. -/
theorem c9_auto_help_witness :
    (hookC9.kind = HookKind.command ∧ hookC9.autoHelp = true ∧
      hookC9.doc = some "usage: .cmd <x>" ∧ "usage: .cmd <x>" ≠ "" ∧
      runSieves envC9 hookC9 [] eventC9 = (some eventC9, []) ∧
      eventC9.textFalsy = true) ∧
    (launchC envC9 [] hookC9 eventC9 = (.ok false, [] ++ [.noticeDoc]) ∧
      launchO envC9 [] hookC9 eventC9 = (.ok false, [] ++ [.noticeDoc]) ∧
      ∀ i, Action.invokeHook i ∉ [] ++ [Action.noticeDoc]) :=
  ⟨⟨rfl, rfl, rfl, by decide, rfl, by decide⟩,
    c9_auto_help envC9 [] hookC9 eventC9 eventC9 [] "usage: .cmd <x>"
      rfl rfl rfl (by decide) rfl (by decide)⟩

/-! ## Claim C10 -/

/-- C10: `add_hook` called with a disallowed hook kind (`onload` in cloudbot;
`on_start` or `command` in the stricter obrbot variant) from a source file
with no synthetic plugin yet raises `ValueError`, but only after inserting a
new empty synthetic plugin into `plugins`: the raising path mutates the
`plugins` mapping even though no hook is registered (all other index
structures are untouched, as the returned registry shows). -/
theorem c10_add_hook_not_atomic (st : Registry) (base title : String) (hk : Hook)
    (h : lookupA st.plugins ("internal/" ++ base) = none) :
    addHookC st .onload base title hk = (addHookRaisedState st base title, .error ()) ∧
    addHookO st .onStart base title hk = (addHookRaisedState st base title, .error ()) ∧
    addHookO st .command base title hk = (addHookRaisedState st base title, .error ()) := by
  refine ⟨?_, ?_, ?_⟩ <;> simp [addHookC, addHookO, addHookRaisedState, h]

/-- C10 witness: the theorem applied to the empty registry. -/
theorem c10_add_hook_not_atomic_witness :
    lookupA Registry.empty.plugins ("internal/" ++ "x.py") = none ∧
    (addHookC Registry.empty .onload "x.py" "internal/x" hookC10 =
        (addHookRaisedState Registry.empty "x.py" "internal/x", .error ()) ∧
      addHookO Registry.empty .onStart "x.py" "internal/x" hookC10 =
        (addHookRaisedState Registry.empty "x.py" "internal/x", .error ()) ∧
      addHookO Registry.empty .command "x.py" "internal/x" hookC10 =
        (addHookRaisedState Registry.empty "x.py" "internal/x", .error ())) :=
  ⟨rfl, c10_add_hook_not_atomic Registry.empty "x.py" "internal/x" hookC10 rfl⟩

/-! ## Claim C2 -/

/-- C2 counterexample: reloading plugin `a.py` (already loaded, owning command
alias `x`) with a new version whose `on_start` hook fails.  `load_plugin`
unloads the old version first, so after the failed load the registry is the
empty registry, not the pre-load registry: the old command mapping for `x`
is gone.  Zero hooks of the new version are indexed, but the registry is not
left exactly as it was before the load attempt. -/
theorem c2_counterexample :
    loadPluginO cfgC2 stC2 pluginC2new true (fun _ => false) = some Registry.empty ∧
    Registry.empty ≠ stC2 ∧
    lookupA stC2.commands "x" = some hookC2 ∧
    lookupA Registry.empty.commands "x" = none := by
  exact ⟨by decide, by decide, by decide, rfl⟩

/-- C2 (amended): for every plugin whose `OnLoad`/`OnStart` hook reports
failure during `load_plugin`, zero of the plugin's hooks are indexed into any
registry table and any table setup already performed for it is torn down;
when no previous version was loaded under the plugin's file name, the
registry is left exactly as before the load attempt (when a previous version
was loaded it has been unloaded first and stays absent, per the
counterexample). -/
theorem c2_failed_onload (cfg : Config) (st : Registry) (meta : List String)
    (p : Plugin) (onloadRes : Hook → Bool)
    (hfresh : lookupA st.plugins p.fileName = none)
    (hgate : loadGateC cfg p.title = true)
    (hfail : ∃ h ∈ p.onStart, onloadRes h = false) :
    loadPluginO cfg st p true onloadRes = some st ∧
    ∃ meta', loadPluginC cfg st meta p true onloadRes = some (st, meta') ∧
      ∀ t ∈ p.tables, t ∉ meta' := by
  have hfx : (p.onStart.find? fun h => !onloadRes h).isSome = true := by
    rw [List.find?_isSome]
    obtain ⟨h, hmem, hres⟩ := hfail
    exact ⟨h, hmem, by rw [hres]; rfl⟩
  obtain ⟨hf, hfeq⟩ := Option.isSome_iff_exists.mp hfx
  constructor
  · simp [loadPluginO, hfresh, hfeq]
  · refine ⟨(p.tables.foldl (fun m t => if t ∈ m then m else m ++ [t]) meta).filter
      (fun t => t ∉ p.tables), ?_, ?_⟩
    · simp [loadPluginC, hgate, hfresh, hfeq]
    · intro t ht hmem
      rw [List.mem_filter] at hmem
      exact absurd ht (by simpa using hmem.2)

/-- C2 witness: a fresh (not previously loaded) load of the failing plugin
leaves the registry exactly unchanged in both variants, and the plugin's
table is absent from the metadata afterwards. -/
theorem c2_failed_onload_witness :
    (lookupA Registry.empty.plugins pluginC2new.fileName = none ∧
      loadGateC cfgC2 pluginC2new.title = true ∧
      (∃ h ∈ pluginC2new.onStart, (fun _ => false) h = false)) ∧
    (loadPluginO cfgC2 Registry.empty pluginC2new true (fun _ => false) =
        some Registry.empty ∧
      ∃ meta', loadPluginC cfgC2 Registry.empty ["other"] pluginC2new true (fun _ => false) =
        some (Registry.empty, meta') ∧ ∀ t ∈ pluginC2new.tables, t ∉ meta') :=
  ⟨⟨rfl, rfl, by decide⟩,
    c2_failed_onload cfgC2 Registry.empty ["other"] pluginC2new (fun _ => false)
      rfl rfl (by decide)⟩

/-! ## Claim C4: unregistration lemmas -/

theorem unregisterAliases_keysNodup (ch : Hook) :
    ∀ (cmds : List (String × Hook)) (as : List String),
      keysNodup cmds → keysNodup (unregisterAliases ch cmds as) := by
  intro cmds as
  induction as generalizing cmds with
  | nil => intro h; exact h
  | cons a rest ih =>
    intro h
    cases hx : lookupA cmds a with
    | none =>
      simp only [unregisterAliases, hx]
      exact ih cmds h
    | some hv =>
      simp only [unregisterAliases, hx]
      by_cases hh : hv = ch
      · rw [if_pos hh]
        exact ih _ (keysNodup_eraseA cmds a h)
      · rw [if_neg hh]
        exact ih cmds h

theorem unregisterAliases_lookup (ch : Hook) :
    ∀ (cmds : List (String × Hook)) (as : List String) (x : String),
      keysNodup cmds →
      lookupA (unregisterAliases ch cmds as) x =
        if x ∈ as ∧ lookupA cmds x = some ch then none else lookupA cmds x := by
  intro cmds as
  induction as generalizing cmds with
  | nil =>
    intro x _
    simp [unregisterAliases]
  | cons a rest ih =>
    intro x hnd
    cases hx : lookupA cmds a with
    | none =>
      simp only [unregisterAliases, hx]
      rw [ih cmds x hnd]
      by_cases hxa : x = a
      · subst hxa
        rw [hx]
        simp
      · simp [List.mem_cons, hxa]
    | some hv =>
      by_cases hh : hv = ch
      · subst hh
        simp only [unregisterAliases, hx, if_pos trivial, if_true]
        rw [ih _ x (keysNodup_eraseA cmds a hnd)]
        by_cases hxa : x = a
        · subst hxa
          rw [lookupA_eraseA_self cmds x hnd, hx]
          simp
        · rw [lookupA_eraseA_ne cmds a x hxa]
          simp [List.mem_cons, hxa]
      · simp only [unregisterAliases, hx, if_neg hh]
        rw [ih cmds x hnd]
        by_cases hxa : x = a
        · subst hxa
          rw [hx]
          simp [Option.some.injEq, hh]
        · simp [List.mem_cons, hxa]

theorem unregisterCommands_lookup :
    ∀ (hooks : List Hook) (cmds : List (String × Hook)) (x : String),
      keysNodup cmds →
      lookupA (unregisterCommands cmds hooks) x = unregCmdExpect cmds hooks x := by
  intro hooks
  induction hooks with
  | nil =>
    intro cmds x _
    cases hl : lookupA cmds x <;> simp [unregisterCommands, unregCmdExpect, hl]
  | cons ch rest ih =>
    intro cmds x hnd
    have hnd' := unregisterAliases_keysNodup ch cmds ch.aliases hnd
    simp only [unregisterCommands]
    rw [ih _ x hnd']
    unfold unregCmdExpect
    rw [unregisterAliases_lookup ch cmds ch.aliases x hnd]
    cases hl : lookupA cmds x with
    | none =>
      rw [if_neg (by simp)]
    | some h₀ =>
      by_cases hc : x ∈ ch.aliases ∧ (some h₀ : Option Hook) = some ch
      · rw [if_pos hc]
        obtain ⟨hc1, hc2⟩ := hc
        have hch : h₀ = ch := Option.some.inj hc2
        subst hch
        show (none : Option Hook) =
          if h₀ ∈ h₀ :: rest ∧ x ∈ h₀.aliases then none else some h₀
        rw [if_pos ⟨List.mem_cons_self _ _, hc1⟩]
      · rw [if_neg hc]
        show (if h₀ ∈ rest ∧ x ∈ h₀.aliases then none else some h₀) =
          if h₀ ∈ ch :: rest ∧ x ∈ h₀.aliases then none else some h₀
        by_cases hmem : h₀ ∈ rest ∧ x ∈ h₀.aliases
        · rw [if_pos hmem, if_pos ⟨List.mem_cons_of_mem _ hmem.1, hmem.2⟩]
        · have hmem' : ¬ (h₀ ∈ ch :: rest ∧ x ∈ h₀.aliases) := by
            intro hand
            rcases List.mem_cons.mp hand.1 with h1 | h1
            · exact hc ⟨by rw [← h1]; exact hand.2, by rw [h1]⟩
            · exact hmem ⟨h1, hand.2⟩
          rw [if_neg hmem, if_neg hmem']

theorem unregisterKeyed_char {κ : Type} [DecidableEq κ] (h : Hook) :
    ∀ (keys : List κ) (m : List (κ × List Hook)),
      keysNodup m → keys.Nodup →
      (∀ k ∈ keys, ∃ l, lookupA m k = some l ∧ h ∈ l) →
      ∃ m', unregisterKeyed h m keys = some m' ∧ keysNodup m' ∧
        ∀ k, lookupA m' k = unregKeyedExpect m h keys k := by
  intro keys
  induction keys with
  | nil =>
    intro m hnd _ _
    refine ⟨m, rfl, hnd, ?_⟩
    intro k
    unfold unregKeyedExpect
    cases hl : lookupA m k with
    | none => rfl
    | some l => simp
  | cons k₀ rest ih =>
    intro m hnd hknd hex
    obtain ⟨l₀, hl₀, hmem₀⟩ := hex k₀ (List.mem_cons_self _ _)
    have hrm : removeFirst l₀ h = some (eraseFirst l₀ h) := by
      unfold removeFirst
      rw [if_pos hmem₀]
    have hk₀rest : k₀ ∉ rest := (List.nodup_cons.mp hknd).1
    have hkndrest : rest.Nodup := (List.nodup_cons.mp hknd).2
    set m₁ : List (κ × List Hook) :=
      if eraseFirst l₀ h = [] then eraseA m k₀ else insertA m k₀ (eraseFirst l₀ h) with hm₁
    have hnd₁ : keysNodup m₁ := by
      rw [hm₁]
      split
      · exact keysNodup_eraseA m k₀ hnd
      · exact keysNodup_insertA m k₀ _ hnd
    have hlook₁ : ∀ k, k ≠ k₀ → lookupA m₁ k = lookupA m k := by
      intro k hk
      rw [hm₁]
      split
      · exact lookupA_eraseA_ne m k₀ k hk
      · exact lookupA_insertA_ne m k₀ k _ hk
    have hlook₁self : lookupA m₁ k₀ =
        if eraseFirst l₀ h = [] then none else some (eraseFirst l₀ h) := by
      rw [hm₁]
      split
      · exact lookupA_eraseA_self m k₀ hnd
      · exact lookupA_insertA_self m k₀ _
    have hex₁ : ∀ k ∈ rest, ∃ l, lookupA m₁ k = some l ∧ h ∈ l := by
      intro k hk
      have hkne : k ≠ k₀ := fun he => hk₀rest (he ▸ hk)
      rw [hlook₁ k hkne]
      exact hex k (List.mem_cons_of_mem _ hk)
    obtain ⟨m', hm', hnd', hchar'⟩ := ih m₁ hnd₁ hkndrest hex₁
    refine ⟨m', ?_, hnd', ?_⟩
    · simp only [unregisterKeyed, hl₀, Option.bind_eq_bind, Option.some_bind, hrm]
      rw [← hm₁]
      exact hm'
    · intro k
      rw [hchar' k]
      unfold unregKeyedExpect
      by_cases hk : k = k₀
      · subst hk
        rw [hlook₁self, hl₀]
        by_cases he : eraseFirst l₀ h = []
        · simp [he, hk₀rest]
        · simp [he, hk₀rest]
      · rw [hlook₁ k hk]
        cases hl : lookupA m k with
        | none => rfl
        | some l => simp [List.mem_cons, hk]

theorem unregisterEventsAll_spec :
    ∀ (hs : List Hook) (m : List (Nat × List Hook)),
      keysNodup m → (∀ pr ∈ m, pr.2 ≠ []) → hs.Nodup →
      (∀ h ∈ hs, h.eventTypes.Nodup) →
      (∀ h ∈ hs, ∀ k ∈ h.eventTypes, ∃ l, lookupA m k = some l ∧ countE l h = 1) →
      (∀ h ∈ hs, ∀ pr ∈ m, h ∈ pr.2 → pr.1 ∈ h.eventTypes) →
      ∃ m', unregisterEventsAll m hs = some m' ∧ keysNodup m' ∧
        (∀ pr ∈ m', pr.2 ≠ []) ∧
        (∀ h ∈ hs, ∀ k l', lookupA m' k = some l' → h ∉ l') ∧
        (∀ k l', lookupA m' k = some l' → ∃ l, lookupA m k = some l ∧ ∀ x ∈ l', x ∈ l) := by
  intro hs
  induction hs with
  | nil =>
    intro m hnd hne _ _ _ _
    refine ⟨m, rfl, hnd, hne, ?_, ?_⟩
    · intro h hh
      cases hh
    · intro k l' hl'
      exact ⟨l', hl', fun x hx => hx⟩
  | cons h rest ih =>
    intro m hnd hne hhs htynd hcount honly
    have hhrest : h ∉ rest := (List.nodup_cons.mp hhs).1
    have hrestnd : rest.Nodup := (List.nodup_cons.mp hhs).2
    have hexK : ∀ k ∈ h.eventTypes, ∃ l, lookupA m k = some l ∧ h ∈ l := by
      intro k hk
      obtain ⟨l, hl, hc⟩ := hcount h (List.mem_cons_self _ _) k hk
      exact ⟨l, hl, countE_pos_iff.mp (by rw [hc]; exact Nat.one_pos)⟩
    obtain ⟨m₁, hm₁eq, hnd₁, hchar⟩ :=
      unregisterKeyed_char h h.eventTypes m hnd (htynd h (List.mem_cons_self _ _)) hexK
    -- every value of m₁ comes from a value of m, minus possibly one occurrence of h
    have hfrom : ∀ k l', lookupA m₁ k = some l' →
        ∃ l, lookupA m k = some l ∧ (l' = l ∨ l' = eraseFirst l h) := by
      intro k l' hl'
      rw [hchar k] at hl'
      unfold unregKeyedExpect at hl'
      split at hl'
      · exact Option.noConfusion hl'
      · rename_i l hl
        split at hl'
        · split at hl'
          · exact Option.noConfusion hl'
          · exact ⟨l, hl, Or.inr (Option.some.inj hl').symm⟩
        · exact ⟨l, hl, Or.inl (Option.some.inj hl').symm⟩
    have hne₁ : ∀ pr ∈ m₁, pr.2 ≠ [] := by
      intro pr hpr
      have hlp := lookupA_of_mem_nodup m₁ pr.1 pr.2 hnd₁ (by
        cases pr
        exact hpr)
      rw [hchar pr.1] at hlp
      unfold unregKeyedExpect at hlp
      split at hlp
      · exact Option.noConfusion hlp
      · rename_i l hl
        split at hlp
        · split at hlp
          · exact Option.noConfusion hlp
          · rename_i hee
            rw [← Option.some.inj hlp]
            exact hee
        · rw [← Option.some.inj hlp]
          exact hne (pr.1, l) (lookupA_mem m pr.1 l hl)
    have hgone₁ : ∀ k l', lookupA m₁ k = some l' → h ∉ l' := by
      intro k l' hl'
      rw [hchar k] at hl'
      unfold unregKeyedExpect at hl'
      split at hl'
      · exact Option.noConfusion hl'
      · rename_i l hl
        split at hl'
        · rename_i hk
          split at hl'
          · exact Option.noConfusion hl'
          · rw [← Option.some.inj hl']
            obtain ⟨l₂, hl₂, hc₂⟩ := hcount h (List.mem_cons_self _ _) k hk
            have hll : l = l₂ := Option.some.inj (hl ▸ hl₂)
            subst hll
            intro hmem
            have hze := countE_eraseFirst_self l h
            rw [hc₂] at hze
            exact absurd (countE_pos_iff.mpr hmem) (by rw [hze]; simp)
        · rw [← Option.some.inj hl']
          intro hmem
          rename_i hk
          exact hk (honly h (List.mem_cons_self _ _) (k, l) (lookupA_mem m k l hl) hmem)
    have hcount₁ : ∀ h₂ ∈ rest, ∀ k ∈ h₂.eventTypes,
        ∃ l, lookupA m₁ k = some l ∧ countE l h₂ = 1 := by
      intro h₂ hh₂ k hk
      obtain ⟨l, hl, hc⟩ := hcount h₂ (List.mem_cons_of_mem _ hh₂) k hk
      have hne₂ : h₂ ≠ h := fun he => hhrest (he ▸ hh₂)
      rw [hchar k]
      unfold unregKeyedExpect
      rw [hl]
      by_cases hkh : k ∈ h.eventTypes
      · have hcpres : countE (eraseFirst l h) h₂ = 1 := by
          rw [countE_eraseFirst_ne l h hne₂]
          exact hc
        have heene : eraseFirst l h ≠ [] := by
          intro hee
          rw [hee] at hcpres
          simp [countE] at hcpres
        refine ⟨eraseFirst l h, ?_, hcpres⟩
        show (if k ∈ h.eventTypes then
            (if eraseFirst l h = [] then none else some (eraseFirst l h)) else some l) =
          some (eraseFirst l h)
        rw [if_pos hkh, if_neg heene]
      · refine ⟨l, ?_, hc⟩
        show (if k ∈ h.eventTypes then
            (if eraseFirst l h = [] then none else some (eraseFirst l h)) else some l) =
          some l
        rw [if_neg hkh]
    have honly₁ : ∀ h₂ ∈ rest, ∀ pr ∈ m₁, h₂ ∈ pr.2 → pr.1 ∈ h₂.eventTypes := by
      intro h₂ hh₂ pr hpr hmem
      have hlp := lookupA_of_mem_nodup m₁ pr.1 pr.2 hnd₁ (by cases pr; exact hpr)
      obtain ⟨l, hl, hor⟩ := hfrom pr.1 pr.2 hlp
      have hmem' : h₂ ∈ l := by
        rcases hor with h1 | h1
        · rw [← h1]; exact hmem
        · exact eraseFirst_subset _ _ _ (h1 ▸ hmem)
      exact honly h₂ (List.mem_cons_of_mem _ hh₂) (pr.1, l) (lookupA_mem m pr.1 l hl) hmem'
    obtain ⟨m', hm'eq, hnd', hne', hgone', hshr'⟩ :=
      ih m₁ hnd₁ hne₁ hrestnd (fun h₂ hh₂ => htynd h₂ (List.mem_cons_of_mem _ hh₂))
        hcount₁ honly₁
    refine ⟨m', ?_, hnd', hne', ?_, ?_⟩
    · simp only [unregisterEventsAll, hm₁eq, Option.bind_eq_bind, Option.some_bind]
      exact hm'eq
    · intro h₂ hh₂ k l' hl'
      rcases List.mem_cons.mp hh₂ with h1 | h1
      · subst h1
        obtain ⟨l₁, hl₁, hsub⟩ := hshr' k l' hl'
        intro hmem
        exact hgone₁ k l₁ hl₁ (hsub h₂ hmem)
      · exact hgone' h₂ h1 k l' hl'
    · intro k l' hl'
      obtain ⟨l₁, hl₁, hsub₁⟩ := hshr' k l' hl'
      obtain ⟨l, hl, hor⟩ := hfrom k l₁ hl₁
      refine ⟨l, hl, ?_⟩
      intro x hx
      rcases hor with h1 | h1
      · rw [← h1]; exact hsub₁ x hx
      · exact eraseFirst_subset _ _ _ (h1 ▸ hsub₁ x hx)

theorem unregisterRawAll_spec :
    ∀ (hs : List Hook) (rt : List (String × List Hook)) (ca : List Hook),
      keysNodup rt → (∀ pr ∈ rt, pr.2 ≠ []) → hs.Nodup →
      (∀ h ∈ hs, h.triggers.Nodup) →
      (∀ h ∈ hs, h.catchAll = true → countE ca h = 1) →
      (∀ h ∈ hs, h.catchAll = false → h ∉ ca ∧
        ∀ t ∈ h.triggers, ∃ l, lookupA rt t = some l ∧ countE l h = 1) →
      (∀ h ∈ hs, ∀ pr ∈ rt, h ∈ pr.2 → pr.1 ∈ h.triggers ∧ h.catchAll = false) →
      ∃ rt' ca', unregisterRawAll rt ca hs = some (rt', ca') ∧ keysNodup rt' ∧
        (∀ pr ∈ rt', pr.2 ≠ []) ∧
        (∀ h ∈ hs, ∀ k l', lookupA rt' k = some l' → h ∉ l') ∧
        (∀ h ∈ hs, h ∉ ca') ∧
        (∀ x ∈ ca', x ∈ ca) ∧
        (∀ k l', lookupA rt' k = some l' → ∃ l, lookupA rt k = some l ∧ ∀ x ∈ l', x ∈ l) := by
  intro hs
  induction hs with
  | nil =>
    intro rt ca hnd hne _ _ _ _ _
    refine ⟨rt, ca, rfl, hnd, hne, ?_, ?_, fun x hx => hx, ?_⟩
    · intro h hh
      cases hh
    · intro h hh
      cases hh
    · intro k l' hl'
      exact ⟨l', hl', fun x hx => hx⟩
  | cons h rest ih =>
    intro rt ca hnd hne hhs htrnd hcatch hncatch honly
    have hhrest : h ∉ rest := (List.nodup_cons.mp hhs).1
    have hrestnd : rest.Nodup := (List.nodup_cons.mp hhs).2
    by_cases hc : h.catchAll = true
    · -- catch-all branch: remove h once from catch_all_triggers
      have hcnt := hcatch h (List.mem_cons_self _ _) hc
      have hmem : h ∈ ca := countE_pos_iff.mp (by rw [hcnt]; exact Nat.one_pos)
      have hrm : removeFirst ca h = some (eraseFirst ca h) := by
        unfold removeFirst
        rw [if_pos hmem]
      have hcatch₁ : ∀ h₂ ∈ rest, h₂.catchAll = true → countE (eraseFirst ca h) h₂ = 1 := by
        intro h₂ hh₂ hc₂
        have hne₂ : h₂ ≠ h := fun he => hhrest (he ▸ hh₂)
        rw [countE_eraseFirst_ne ca h hne₂]
        exact hcatch h₂ (List.mem_cons_of_mem _ hh₂) hc₂
      have hncatch₁ : ∀ h₂ ∈ rest, h₂.catchAll = false → h₂ ∉ eraseFirst ca h ∧
          ∀ t ∈ h₂.triggers, ∃ l, lookupA rt t = some l ∧ countE l h₂ = 1 := by
        intro h₂ hh₂ hc₂
        obtain ⟨hnc, hcnt₂⟩ := hncatch h₂ (List.mem_cons_of_mem _ hh₂) hc₂
        exact ⟨fun hmem₂ => hnc (eraseFirst_subset _ _ _ hmem₂), hcnt₂⟩
      obtain ⟨rt', ca', heq, hnd', hne', hgone', hcaout', hcasub', hshr'⟩ :=
        ih rt (eraseFirst ca h) hnd hne hrestnd
          (fun h₂ hh₂ => htrnd h₂ (List.mem_cons_of_mem _ hh₂)) hcatch₁ hncatch₁
          (fun h₂ hh₂ => honly h₂ (List.mem_cons_of_mem _ hh₂))
      refine ⟨rt', ca', ?_, hnd', hne', ?_, ?_, ?_, hshr'⟩
      · simp only [unregisterRawAll, hc, if_true, hrm, Option.bind_eq_bind, Option.some_bind]
        exact heq
      · intro h₂ hh₂ k l' hl'
        rcases List.mem_cons.mp hh₂ with h1 | h1
        · subst h1
          obtain ⟨l, hl, hsub⟩ := hshr' k l' hl'
          intro hmem₂
          have hcl := honly h₂ (List.mem_cons_self _ _) (k, l) (lookupA_mem rt k l hl)
            (hsub h₂ hmem₂)
          rw [hc] at hcl
          exact Bool.noConfusion hcl.2
        · exact hgone' h₂ h1 k l' hl'
      · intro h₂ hh₂
        rcases List.mem_cons.mp hh₂ with h1 | h1
        · subst h1
          intro hmem₂
          have := countE_eraseFirst_self ca h₂
          rw [hcnt] at this
          exact absurd (countE_pos_iff.mpr (hcasub' h₂ hmem₂)) (by rw [this]; simp)
        · exact hcaout' h₂ h1
      · intro x hx
        exact eraseFirst_subset _ _ _ (hcasub' x hx)
    · -- trigger-specific branch: remove h once from each of its trigger lists
      have hcfalse : h.catchAll = false := by
        cases hcc : h.catchAll
        · rfl
        · exact absurd hcc hc
      obtain ⟨hnotca, hcnt⟩ := hncatch h (List.mem_cons_self _ _) hcfalse
      have hexK : ∀ k ∈ h.triggers, ∃ l, lookupA rt k = some l ∧ h ∈ l := by
        intro k hk
        obtain ⟨l, hl, hcl⟩ := hcnt k hk
        exact ⟨l, hl, countE_pos_iff.mp (by rw [hcl]; exact Nat.one_pos)⟩
      obtain ⟨rt₁, hrt₁eq, hnd₁, hchar⟩ :=
        unregisterKeyed_char h h.triggers rt hnd (htrnd h (List.mem_cons_self _ _)) hexK
      have hfrom : ∀ k l', lookupA rt₁ k = some l' →
          ∃ l, lookupA rt k = some l ∧ (l' = l ∨ l' = eraseFirst l h) := by
        intro k l' hl'
        rw [hchar k] at hl'
        unfold unregKeyedExpect at hl'
        split at hl'
        · exact Option.noConfusion hl'
        · rename_i l hl
          split at hl'
          · split at hl'
            · exact Option.noConfusion hl'
            · exact ⟨l, hl, Or.inr (Option.some.inj hl').symm⟩
          · exact ⟨l, hl, Or.inl (Option.some.inj hl').symm⟩
      have hne₁ : ∀ pr ∈ rt₁, pr.2 ≠ [] := by
        intro pr hpr
        have hlp := lookupA_of_mem_nodup rt₁ pr.1 pr.2 hnd₁ (by
          cases pr
          exact hpr)
        rw [hchar pr.1] at hlp
        unfold unregKeyedExpect at hlp
        split at hlp
        · exact Option.noConfusion hlp
        · rename_i l hl
          split at hlp
          · split at hlp
            · exact Option.noConfusion hlp
            · rename_i hee
              rw [← Option.some.inj hlp]
              exact hee
          · rw [← Option.some.inj hlp]
            exact hne (pr.1, l) (lookupA_mem rt pr.1 l hl)
      have hgone₁ : ∀ k l', lookupA rt₁ k = some l' → h ∉ l' := by
        intro k l' hl'
        rw [hchar k] at hl'
        unfold unregKeyedExpect at hl'
        split at hl'
        · exact Option.noConfusion hl'
        · rename_i l hl
          split at hl'
          · rename_i hk
            split at hl'
            · exact Option.noConfusion hl'
            · rw [← Option.some.inj hl']
              obtain ⟨l₂, hl₂, hc₂⟩ := hcnt k hk
              have hll : l = l₂ := Option.some.inj (hl ▸ hl₂)
              subst hll
              intro hmem₂
              have hze := countE_eraseFirst_self l h
              rw [hc₂] at hze
              exact absurd (countE_pos_iff.mpr hmem₂) (by rw [hze]; simp)
          · rw [← Option.some.inj hl']
            intro hmem₂
            rename_i hk
            exact hk ((honly h (List.mem_cons_self _ _) (k, l)
              (lookupA_mem rt k l hl) hmem₂).1)
      have hcnt₁ : ∀ h₂ ∈ rest, h₂.catchAll = false → h₂ ∉ ca ∧
          ∀ t ∈ h₂.triggers, ∃ l, lookupA rt₁ t = some l ∧ countE l h₂ = 1 := by
        intro h₂ hh₂ hc₂
        obtain ⟨hnc₂, hcnt₂⟩ := hncatch h₂ (List.mem_cons_of_mem _ hh₂) hc₂
        refine ⟨hnc₂, ?_⟩
        intro k hk
        obtain ⟨l, hl, hcl⟩ := hcnt₂ k hk
        have hne₂ : h₂ ≠ h := fun he => hhrest (he ▸ hh₂)
        rw [hchar k]
        unfold unregKeyedExpect
        rw [hl]
        by_cases hkh : k ∈ h.triggers
        · have hcpres : countE (eraseFirst l h) h₂ = 1 := by
            rw [countE_eraseFirst_ne l h hne₂]
            exact hcl
          have heene : eraseFirst l h ≠ [] := by
            intro hee
            rw [hee] at hcpres
            simp [countE] at hcpres
          refine ⟨eraseFirst l h, ?_, hcpres⟩
          show (if k ∈ h.triggers then
              (if eraseFirst l h = [] then none else some (eraseFirst l h)) else some l) =
            some (eraseFirst l h)
          rw [if_pos hkh, if_neg heene]
        · refine ⟨l, ?_, hcl⟩
          show (if k ∈ h.triggers then
              (if eraseFirst l h = [] then none else some (eraseFirst l h)) else some l) =
            some l
          rw [if_neg hkh]
      have honly₁ : ∀ h₂ ∈ rest, ∀ pr ∈ rt₁, h₂ ∈ pr.2 →
          pr.1 ∈ h₂.triggers ∧ h₂.catchAll = false := by
        intro h₂ hh₂ pr hpr hmem₂
        have hlp := lookupA_of_mem_nodup rt₁ pr.1 pr.2 hnd₁ (by cases pr; exact hpr)
        obtain ⟨l, hl, hor⟩ := hfrom pr.1 pr.2 hlp
        have hmem' : h₂ ∈ l := by
          rcases hor with h1 | h1
          · rw [← h1]; exact hmem₂
          · exact eraseFirst_subset _ _ _ (h1 ▸ hmem₂)
        exact honly h₂ (List.mem_cons_of_mem _ hh₂) (pr.1, l) (lookupA_mem rt pr.1 l hl) hmem'
      obtain ⟨rt', ca', heq, hnd', hne', hgone', hcaout', hcasub', hshr'⟩ :=
        ih rt₁ ca hnd₁ hne₁ hrestnd
          (fun h₂ hh₂ => htrnd h₂ (List.mem_cons_of_mem _ hh₂))
          (fun h₂ hh₂ => hcatch h₂ (List.mem_cons_of_mem _ hh₂)) hcnt₁ honly₁
      refine ⟨rt', ca', ?_, hnd', hne', ?_, ?_, hcasub', ?_⟩
      · simp only [unregisterRawAll, hcfalse, Bool.false_eq_true, if_false, hrt₁eq,
          Option.bind_eq_bind, Option.some_bind]
        exact heq
      · intro h₂ hh₂ k l' hl'
        rcases List.mem_cons.mp hh₂ with h1 | h1
        · subst h1
          obtain ⟨l₁, hl₁, hsub⟩ := hshr' k l' hl'
          intro hmem₂
          exact hgone₁ k l₁ hl₁ (hsub h₂ hmem₂)
        · exact hgone' h₂ h1 k l' hl'
      · intro h₂ hh₂
        rcases List.mem_cons.mp hh₂ with h1 | h1
        · subst h1
          intro hmem₂
          exact hnotca (hcasub' h₂ hmem₂)
        · exact hcaout' h₂ h1
      · intro k l' hl'
        obtain ⟨l₁, hl₁, hsub₁⟩ := hshr' k l' hl'
        obtain ⟨l, hl, hor⟩ := hfrom k l₁ hl₁
        refine ⟨l, hl, ?_⟩
        intro x hx
        rcases hor with h1 | h1
        · rw [← h1]; exact hsub₁ x hx
        · exact eraseFirst_subset _ _ _ (h1 ▸ hsub₁ x hx)

theorem unregisterRegexHook_spec (h : Hook) :
    ∀ (rids : List Nat) (pairs : List (Nat × Hook)),
      rids.Nodup →
      (∀ rid ∈ rids, countE pairs (rid, h) = 1) →
      ∃ pairs', unregisterRegexHook h pairs rids = some pairs' ∧
        ∀ pr : Nat × Hook, countE pairs' pr =
          if pr.1 ∈ rids ∧ pr.2 = h then 0 else countE pairs pr := by
  intro rids
  induction rids with
  | nil =>
    intro pairs _ _
    refine ⟨pairs, rfl, ?_⟩
    intro pr
    simp
  | cons rid₀ rest ih =>
    intro pairs hknd hcnt
    have hc₀ := hcnt rid₀ (List.mem_cons_self _ _)
    have hmem₀ : (rid₀, h) ∈ pairs :=
      countE_pos_iff.mp (by rw [hc₀]; exact Nat.one_pos)
    have hrm : removeFirst pairs (rid₀, h) = some (eraseFirst pairs (rid₀, h)) := by
      unfold removeFirst
      rw [if_pos hmem₀]
    have hr₀rest : rid₀ ∉ rest := (List.nodup_cons.mp hknd).1
    have hcnt₁ : ∀ rid ∈ rest, countE (eraseFirst pairs (rid₀, h)) (rid, h) = 1 := by
      intro rid hrid
      have hne : ((rid, h) : Nat × Hook) ≠ (rid₀, h) := by
        intro heq
        injection heq with h1 _
        exact hr₀rest (h1 ▸ hrid)
      rw [countE_eraseFirst_ne pairs (rid₀, h) hne]
      exact hcnt rid (List.mem_cons_of_mem _ hrid)
    obtain ⟨pairs', heq, hchar⟩ := ih (eraseFirst pairs (rid₀, h)) (List.nodup_cons.mp hknd).2 hcnt₁
    refine ⟨pairs', ?_, ?_⟩
    · simp only [unregisterRegexHook, hrm, Option.bind_eq_bind, Option.some_bind]
      exact heq
    · intro pr
      rw [hchar pr]
      by_cases hpr : pr.1 ∈ rest ∧ pr.2 = h
      · rw [if_pos hpr, if_pos ⟨List.mem_cons_of_mem _ hpr.1, hpr.2⟩]
      · rw [if_neg hpr]
        by_cases hpr₀ : pr = (rid₀, h)
        · subst hpr₀
          rw [if_pos ⟨List.mem_cons_self _ _, rfl⟩]
          rw [countE_eraseFirst_self, hc₀]
        · rw [countE_eraseFirst_ne pairs (rid₀, h) hpr₀]
          have : ¬ (pr.1 ∈ rid₀ :: rest ∧ pr.2 = h) := by
            intro hand
            rcases List.mem_cons.mp hand.1 with h1 | h1
            · apply hpr₀
              cases pr
              simp only [Prod.mk.injEq]
              exact ⟨h1, hand.2⟩
            · exact hpr ⟨h1, hand.2⟩
          rw [if_neg this]

theorem unregisterRegexAll_spec :
    ∀ (hs : List Hook) (pairs : List (Nat × Hook)),
      hs.Nodup → (∀ h ∈ hs, h.regexes.Nodup) →
      (∀ h ∈ hs, ∀ rid ∈ h.regexes, countE pairs (rid, h) = 1) →
      (∀ h ∈ hs, ∀ pr ∈ pairs, pr.2 = h → pr.1 ∈ h.regexes) →
      ∃ pairs', unregisterRegexAll pairs hs = some pairs' ∧
        (∀ pr ∈ pairs', pr ∈ pairs) ∧
        (∀ h ∈ hs, ∀ rid, (rid, h) ∉ pairs') := by
  intro hs
  induction hs with
  | nil =>
    intro pairs _ _ _ _
    refine ⟨pairs, rfl, fun pr hpr => hpr, ?_⟩
    intro h hh
    cases hh
  | cons h rest ih =>
    intro pairs hhs hrxnd hcnt honly
    have hhrest : h ∉ rest := (List.nodup_cons.mp hhs).1
    obtain ⟨pairs₁, heq₁, hchar⟩ :=
      unregisterRegexHook_spec h h.regexes pairs (hrxnd h (List.mem_cons_self _ _))
        (hcnt h (List.mem_cons_self _ _))
    have hsub₁ : ∀ pr ∈ pairs₁, pr ∈ pairs := by
      intro pr hpr
      have hpos := countE_pos_iff.mpr hpr
      rw [hchar pr] at hpos
      split at hpos
      · exact absurd hpos (by simp)
      · exact countE_pos_iff.mp hpos
    have hgone₁ : ∀ rid, (rid, h) ∉ pairs₁ := by
      intro rid hmem
      have hpos := countE_pos_iff.mpr hmem
      rw [hchar (rid, h)] at hpos
      split at hpos
      · exact absurd hpos (by simp)
      · rename_i hcond
        have hrid : rid ∉ h.regexes := by
          intro hin
          exact hcond ⟨hin, rfl⟩
        have : (rid, h) ∉ pairs := by
          intro hin
          exact hrid (honly h (List.mem_cons_self _ _) (rid, h) hin rfl)
        rw [countE_eq_zero.mpr this] at hpos
        exact absurd hpos (by simp)
    have hcnt₁ : ∀ h₂ ∈ rest, ∀ rid ∈ h₂.regexes, countE pairs₁ (rid, h₂) = 1 := by
      intro h₂ hh₂ rid hrid
      rw [hchar (rid, h₂)]
      have hne₂ : h₂ ≠ h := fun he => hhrest (he ▸ hh₂)
      rw [if_neg (fun hand => hne₂ hand.2)]
      exact hcnt h₂ (List.mem_cons_of_mem _ hh₂) rid hrid
    have honly₁ : ∀ h₂ ∈ rest, ∀ pr ∈ pairs₁, pr.2 = h₂ → pr.1 ∈ h₂.regexes := by
      intro h₂ hh₂ pr hpr hh
      exact honly h₂ (List.mem_cons_of_mem _ hh₂) pr (hsub₁ pr hpr) hh
    obtain ⟨pairs', heq', hsub', hgone'⟩ :=
      ih pairs₁ (List.nodup_cons.mp hhs).2
        (fun h₂ hh₂ => hrxnd h₂ (List.mem_cons_of_mem _ hh₂)) hcnt₁ honly₁
    refine ⟨pairs', ?_, ?_, ?_⟩
    · simp only [unregisterRegexAll, heq₁, Option.bind_eq_bind, Option.some_bind]
      exact heq'
    · intro pr hpr
      exact hsub₁ pr (hsub' pr hpr)
    · intro h₂ hh₂ rid
      rcases List.mem_cons.mp hh₂ with h1 | h1
      · subst h1
        intro hmem
        exact hgone₁ rid (hsub' (rid, h₂) hmem)
      · exact hgone' h₂ h1 rid

theorem unregisterSievesAll_spec :
    ∀ (hs sv : List Hook), hs.Nodup → (∀ h ∈ hs, countE sv h = 1) →
      ∃ sv', unregisterSievesAll sv hs = some sv' ∧
        (∀ x ∈ sv', x ∈ sv) ∧ (∀ h ∈ hs, h ∉ sv') := by
  intro hs
  induction hs with
  | nil =>
    intro sv _ _
    refine ⟨sv, rfl, fun x hx => hx, ?_⟩
    intro h hh
    cases hh
  | cons h rest ih =>
    intro sv hhs hcnt
    have hhrest : h ∉ rest := (List.nodup_cons.mp hhs).1
    have hc₀ := hcnt h (List.mem_cons_self _ _)
    have hmem₀ : h ∈ sv := countE_pos_iff.mp (by rw [hc₀]; exact Nat.one_pos)
    have hrm : removeFirst sv h = some (eraseFirst sv h) := by
      unfold removeFirst
      rw [if_pos hmem₀]
    have hcnt₁ : ∀ h₂ ∈ rest, countE (eraseFirst sv h) h₂ = 1 := by
      intro h₂ hh₂
      have hne₂ : h₂ ≠ h := fun he => hhrest (he ▸ hh₂)
      rw [countE_eraseFirst_ne sv h hne₂]
      exact hcnt h₂ (List.mem_cons_of_mem _ hh₂)
    obtain ⟨sv', heq, hsub, hgone⟩ := ih (eraseFirst sv h) (List.nodup_cons.mp hhs).2 hcnt₁
    refine ⟨sv', ?_, ?_, ?_⟩
    · simp only [unregisterSievesAll, hrm, Option.bind_eq_bind, Option.some_bind]
      exact heq
    · intro x hx
      exact eraseFirst_subset _ _ _ (hsub x hx)
    · intro h₂ hh₂
      rcases List.mem_cons.mp hh₂ with h1 | h1
      · subst h1
        intro hmem₂
        have hze := countE_eraseFirst_self sv h₂
        rw [hc₀] at hze
        exact absurd (countE_pos_iff.mpr (hsub h₂ hmem₂)) (by rw [hze]; simp)
      · exact hgone h₂ h1

/-- C4 counterexample: plugin `b` is loaded (a command, raw, catch-all,
event, regex and sieve hook are all indexed for it), but its title is listed
in `disabled_plugins`, so `_unload` returns `False` without removing
anything: the registry is returned unchanged and `b`'s command is still
mapped.  (`disabled_plugins` is not the load gate — cloudbot's loader checks
`plugin_loading` and obrbot's loader checks nothing — so a loaded plugin can
be in this list.) -/
theorem c4_counterexample :
    unloadO cfgC4 stC4 "b.py" "b" = some (stC4, false) ∧
    lookupA stC4.plugins "b.py" = some pluginC4 ∧
    lookupA stC4.commands "z" = some hookC4cmd := by
  exact ⟨by decide, by decide, by decide⟩

/-- C4 (amended): for every loaded plugin whose title is not administratively
disabled, `_unload` removes every hook owned by that plugin from every index
(commands; raw triggers, deleting trigger entries that become empty;
catch-all triggers; event-type hooks, deleting type entries that become
empty; regex pairs; sieves), removes the plugin from `plugins`, tears down
its table setup (cloudbot), and removes a command alias only when the hook
currently mapped under it is the plugin's own hook, leaving a different
plugin's conflicting-alias winner unchanged. -/
theorem c4_unload_removes (cfg : Config) (st : Registry) (meta : List String)
    (p : Plugin) (fileName title : String)
    (hfn : p.fileName = fileName)
    (hpk : keysNodup st.plugins)
    (hdis : title ∉ cfg.disabledPlugins)
    (hp : lookupA st.plugins fileName = some p)
    (hwf : UnloadReady st p) :
    ∃ st', unloadO cfg st fileName title = some (st', true) ∧
      unloadC cfg st meta fileName title =
        some (st', meta.filter (fun t => t ∉ p.tables), true) ∧
      lookupA st'.plugins fileName = none ∧
      (∀ a h, lookupA st'.commands a = some h → h ∉ p.commands) ∧
      (∀ a h₀, lookupA st.commands a = some h₀ → h₀ ∉ p.commands →
        lookupA st'.commands a = some h₀) ∧
      (∀ t l, lookupA st'.rawTriggers t = some l → l ≠ [] ∧ ∀ h ∈ p.rawHooks, h ∉ l) ∧
      (∀ h ∈ p.rawHooks, h ∉ st'.catchAllTriggers) ∧
      (∀ ty l, lookupA st'.eventTypeHooks ty = some l → l ≠ [] ∧ ∀ h ∈ p.events, h ∉ l) ∧
      (∀ h ∈ p.regexes, ∀ rid, (rid, h) ∉ st'.regexHooks) ∧
      (∀ h ∈ p.sieves, h ∉ st'.sieves) := by
  obtain ⟨hcA, hcK, hrK, hrNE, hrND, htrND, hcat, hncat, hronly, heK, heNE, heND,
    htyND, hecnt, heonly, hrxND, hrxpND, hrxcnt, hrxonly, hsvND, hsvcnt⟩ := hwf
  have hncat' : ∀ h ∈ p.rawHooks, h.catchAll = false → h ∉ st.catchAllTriggers ∧
      ∀ t ∈ h.triggers, ∃ l, lookupA st.rawTriggers t = some l ∧ countE l h = 1 := by
    intro h hh hcf
    obtain ⟨h1, h2⟩ := hncat h hh hcf
    refine ⟨h1, ?_⟩
    intro t ht
    obtain ⟨hiss, hcnt1⟩ := h2 t ht
    obtain ⟨l, hl⟩ := Option.isSome_iff_exists.mp hiss
    refine ⟨l, hl, ?_⟩
    rw [hl] at hcnt1
    exact hcnt1
  have hecnt' : ∀ h ∈ p.events, ∀ ty ∈ h.eventTypes,
      ∃ l, lookupA st.eventTypeHooks ty = some l ∧ countE l h = 1 := by
    intro h hh ty hty
    obtain ⟨hiss, hcnt1⟩ := hecnt h hh ty hty
    obtain ⟨l, hl⟩ := Option.isSome_iff_exists.mp hiss
    refine ⟨l, hl, ?_⟩
    rw [hl] at hcnt1
    exact hcnt1
  obtain ⟨rt', ca', hraweq, hrnd', hrne', hrgone', hcaout', hcasub', hrshr'⟩ :=
    unregisterRawAll_spec p.rawHooks st.rawTriggers st.catchAllTriggers
      hrK hrNE hrND htrND hcat hncat' hronly
  obtain ⟨eth', heeq, hend', hene', hegone', heshr'⟩ :=
    unregisterEventsAll_spec p.events st.eventTypeHooks heK heNE heND htyND hecnt' heonly
  obtain ⟨rx', hrxeq, hrxsub', hrxgone'⟩ :=
    unregisterRegexAll_spec p.regexes st.regexHooks hrxND hrxpND hrxcnt hrxonly
  obtain ⟨sv', hsveq, hsvsub', hsvgone'⟩ :=
    unregisterSievesAll_spec p.sieves st.sieves hsvND hsvcnt
  have hcore : unloadCore st p = some { st with
      commands := unregisterCommands st.commands p.commands
      rawTriggers := rt'
      catchAllTriggers := ca'
      eventTypeHooks := eth'
      regexHooks := rx'
      sieves := sv'
      plugins := eraseA st.plugins p.fileName } := by
    simp only [unloadCore, hraweq, heeq, hrxeq, hsveq, Option.bind_eq_bind, Option.some_bind]
  refine ⟨{ st with
      commands := unregisterCommands st.commands p.commands
      rawTriggers := rt'
      catchAllTriggers := ca'
      eventTypeHooks := eth'
      regexHooks := rx'
      sieves := sv'
      plugins := eraseA st.plugins p.fileName }, ?_, ?_, ?_, ?_, ?_, ?_, ?_, ?_, ?_, ?_⟩
  · simp only [unloadO, if_neg hdis, hp, hcore, Option.map_some']
  · simp only [unloadC, if_neg hdis, hp, hcore, Option.map_some']
  · show lookupA (eraseA st.plugins p.fileName) fileName = none
    rw [← hfn]
    exact lookupA_eraseA_self st.plugins p.fileName hpk
  · intro a h hl
    rw [unregisterCommands_lookup p.commands st.commands a hcK] at hl
    unfold unregCmdExpect at hl
    split at hl
    · rename_i h₀ hl₀
      split at hl
      · exact Option.noConfusion hl
      · rename_i hcond
        rw [← Option.some.inj hl]
        intro hmem
        exact hcond ⟨hmem, hcA (a, h₀) (lookupA_mem st.commands a h₀ hl₀)⟩
    · exact Option.noConfusion hl
  · intro a h₀ hl hnot
    show lookupA (unregisterCommands st.commands p.commands) a = some h₀
    rw [unregisterCommands_lookup p.commands st.commands a hcK]
    unfold unregCmdExpect
    rw [hl]
    show (if h₀ ∈ p.commands ∧ a ∈ h₀.aliases then none else some h₀) = some h₀
    rw [if_neg (fun hand => hnot hand.1)]
  · intro t l hl
    exact ⟨hrne' (t, l) (lookupA_mem rt' t l hl), fun h hh hmem => hrgone' h hh t l hl hmem⟩
  · exact hcaout'
  · intro ty l hl
    exact ⟨hene' (ty, l) (lookupA_mem eth' ty l hl), fun h hh hmem => hegone' h hh ty l hl hmem⟩
  · exact hrxgone'
  · exact hsvgone'

/-- C4 witness: the amended theorem applied to the registry in which plugin
`b` is fully registered (one hook of each kind) alongside plugin `a`, whose
hook won the conflicting command alias `x`. -/
theorem c4_unload_removes_witness :
    (pluginC4.fileName = "b.py" ∧ keysNodup stC4.plugins ∧
      "b" ∉ cfgC2.disabledPlugins ∧ lookupA stC4.plugins "b.py" = some pluginC4 ∧
      UnloadReady stC4 pluginC4) ∧
    (∃ st', unloadO cfgC2 stC4 "b.py" "b" = some (st', true) ∧
      unloadC cfgC2 stC4 ["tb", "other"] "b.py" "b" =
        some (st', ["tb", "other"].filter (fun t => t ∉ pluginC4.tables), true) ∧
      lookupA st'.plugins "b.py" = none ∧
      (∀ a h, lookupA st'.commands a = some h → h ∉ pluginC4.commands) ∧
      (∀ a h₀, lookupA stC4.commands a = some h₀ → h₀ ∉ pluginC4.commands →
        lookupA st'.commands a = some h₀) ∧
      (∀ t l, lookupA st'.rawTriggers t = some l → l ≠ [] ∧ ∀ h ∈ pluginC4.rawHooks, h ∉ l) ∧
      (∀ h ∈ pluginC4.rawHooks, h ∉ st'.catchAllTriggers) ∧
      (∀ ty l, lookupA st'.eventTypeHooks ty = some l → l ≠ [] ∧ ∀ h ∈ pluginC4.events, h ∉ l) ∧
      (∀ h ∈ pluginC4.regexes, ∀ rid, (rid, h) ∉ st'.regexHooks) ∧
      (∀ h ∈ pluginC4.sieves, h ∉ st'.sieves)) :=
  ⟨⟨rfl, by decide, by decide, by decide, by decide⟩,
    c4_unload_removes cfgC2 stC4 ["tb", "other"] pluginC4 "b.py" "b"
      rfl (by decide) (by decide) (by decide) (by decide)⟩

/-! ## Claim C3 -/

theorem registerAliases_preserves (ch : Hook) (a : String) (h₀ : Hook) :
    ∀ (cmds : List (String × Hook)) (as : List String),
      lookupA cmds a = some h₀ →
      lookupA (registerAliases ch cmds as).1 a = some h₀ ∧
      (a ∈ as →
        Action.warnDuplicate ch.pluginTitle a h₀.pluginTitle ∈ (registerAliases ch cmds as).2) := by
  intro cmds as
  induction as generalizing cmds with
  | nil =>
    intro hlk
    exact ⟨hlk, by intro h; cases h⟩
  | cons a' rest ih =>
    intro hlk
    cases hx : lookupA cmds a' with
    | some ex =>
      simp only [registerAliases, hx]
      obtain ⟨ih1, ih2⟩ := ih cmds hlk
      refine ⟨ih1, ?_⟩
      intro hmem
      rcases List.mem_cons.mp hmem with h1 | h1
      · subst h1
        have : ex = h₀ := by
          rw [hx] at hlk
          exact Option.some.inj hlk
        subst this
        exact List.mem_cons_self _ _
      · exact List.mem_cons_of_mem _ (ih2 h1)
    | none =>
      have hne : a ≠ a' := by
        intro h
        rw [← h, hlk] at hx
        exact Option.noConfusion hx
      simp only [registerAliases, hx]
      have hlk' : lookupA (insertA cmds a' ch) a = some h₀ := by
        rw [lookupA_insertA_ne cmds a' a ch hne]
        exact hlk
      obtain ⟨ih1, ih2⟩ := ih (insertA cmds a' ch) hlk'
      refine ⟨ih1, ?_⟩
      intro hmem
      rcases List.mem_cons.mp hmem with h1 | h1
      · exact absurd h1 hne
      · exact ih2 h1

theorem registerAliases_keysNodup (ch : Hook) :
    ∀ (cmds : List (String × Hook)) (as : List String),
      keysNodup cmds → keysNodup (registerAliases ch cmds as).1 := by
  intro cmds as
  induction as generalizing cmds with
  | nil => intro h; exact h
  | cons a' rest ih =>
    intro h
    cases hx : lookupA cmds a' with
    | some ex =>
      simp only [registerAliases, hx]
      exact ih cmds h
    | none =>
      simp only [registerAliases, hx]
      exact ih (insertA cmds a' ch) (keysNodup_insertA cmds a' ch h)

/-- C3: for every state of the commands index and every registration of
command hooks, an alias already present keeps its existing mapping unchanged,
the new registration of that alias is rejected with a logged warning naming
the new plugin, the alias and the prior owner, and key uniqueness (at most
one hook per alias) is preserved. -/
theorem c3_first_wins (cmds : List (String × Hook)) (hooks : List Hook)
    (a : String) (h₀ : Hook)
    (hnd : keysNodup cmds) (hlk : lookupA cmds a = some h₀) :
    lookupA (registerCommands cmds hooks).1 a = some h₀ ∧
    (∀ ch ∈ hooks, a ∈ ch.aliases →
      Action.warnDuplicate ch.pluginTitle a h₀.pluginTitle ∈ (registerCommands cmds hooks).2) ∧
    keysNodup (registerCommands cmds hooks).1 := by
  induction hooks generalizing cmds with
  | nil =>
    refine ⟨hlk, ?_, hnd⟩
    intro ch hch
    cases hch
  | cons ch rest ih =>
    obtain ⟨h1, h2⟩ := registerAliases_preserves ch a h₀ cmds ch.aliases hlk
    have hnd' := registerAliases_keysNodup ch cmds ch.aliases hnd
    obtain ⟨ih1, ih2, ih3⟩ := ih (registerAliases ch cmds ch.aliases).1 hnd' h1
    refine ⟨ih1, ?_, ih3⟩
    intro ch' hch' hal
    simp only [registerCommands, List.mem_append]
    rcases List.mem_cons.mp hch' with hc | hc
    · subst hc
      exact Or.inl (h2 hal)
    · exact Or.inr (ih2 ch' hc hal)

/-- C3 witness: plugin `pB` registering hooks with aliases `x` (taken by
`pA`'s hook) and `y`: the mapping for `x` is preserved, a warning is logged,
and alias uniqueness holds. -/
theorem c3_first_wins_witness :
    (keysNodup [("x", hookC3a)] ∧ lookupA [("x", hookC3a)] "x" = some hookC3a) ∧
    (lookupA (registerCommands [("x", hookC3a)] [hookC3b]).1 "x" = some hookC3a ∧
      (∀ ch ∈ [hookC3b], "x" ∈ ch.aliases →
        Action.warnDuplicate ch.pluginTitle "x" hookC3a.pluginTitle ∈
          (registerCommands [("x", hookC3a)] [hookC3b]).2) ∧
      keysNodup (registerCommands [("x", hookC3a)] [hookC3b]).1) :=
  ⟨⟨by decide, by decide⟩,
    c3_first_wins [("x", hookC3a)] [hookC3b] "x" hookC3a (by decide) (by decide)⟩

/-! ## Claim C6: wait-queue invariant lemmas -/

theorem getD_set_self {α : Type} (l : List α) (i : Nat) (v d : α) (h : i < l.length) :
    (l.set i v).getD i d = v := by
  rw [List.getD_eq_getElem?_getD, List.getElem?_set_self h]
  rfl

theorem getD_set_ne {α : Type} (l : List α) {i j : Nat} (v d : α) (h : i ≠ j) :
    (l.set i v).getD j d = l.getD j d := by
  rw [List.getD_eq_getElem?_getD, List.getElem?_set_ne h, ← List.getD_eq_getElem?_getD]

theorem statusOf_lt_of_ne_idle {s : QState} {t : Nat} (h : s.statusOf t ≠ .idle) :
    t < s.status.length := by
  by_contra hge
  push_neg at hge
  apply h
  unfold QState.statusOf
  rw [List.getD_eq_getElem?_getD, List.getElem?_eq_none hge]
  rfl

theorem statusOf_init (n t : Nat) : (initQState n).statusOf t = .idle := by
  unfold QState.statusOf initQState
  simp only [List.getD_eq_getElem?_getD, List.getElem?_replicate]
  split <;> rfl

theorem QInv_init (n : Nat) : QInv (initQState n) := by
  refine
    { uniqueFlight := ?_
      noneNoFlight := ?_
      noneNoWait := ?_
      busyNoWait := ?_
      busyNoWoken := ?_
      queueWaiting := ?_
      queueNodup := ?_
      queueLt := ?_
      wokenQueue := ?_
      orderEq := ?_ }
  · intro t₁ t₂ h1 _
    rcases h1 with h1 | h1 <;> rw [statusOf_init] at h1 <;> exact TaskStatus.noConfusion h1
  · intro _ t h1
    rcases h1 with h1 | h1 <;> rw [statusOf_init] at h1 <;> exact TaskStatus.noConfusion h1
  · intro _ t
    rw [statusOf_init]
    exact fun h => TaskStatus.noConfusion h
  · intro he
    exact Option.noConfusion he
  · intro he
    exact Option.noConfusion he
  · intro q he
    exact Option.noConfusion he
  · intro q he
    exact Option.noConfusion he
  · intro q he
    exact Option.noConfusion he
  · intro u hu
    rw [statusOf_init] at hu
    exact TaskStatus.noConfusion hu
  · exact ⟨[], rfl, Or.inl ⟨rfl, fun u => by
      rw [statusOf_init]
      exact fun h => TaskStatus.noConfusion h⟩⟩

theorem qinvArriveRun (s : QState) (t : Nat) (ht : t < s.status.length)
    (hsi : s.statusOf t = .idle) (he : s.entry = none) (hv : QInv s) :
    QInv { entry := some none, status := s.status.set t .running,
           arrived := s.arrived ++ [t], started := s.started ++ [t] } := by
  have hso : ∀ x, (s.status.set t TaskStatus.running).getD x TaskStatus.idle =
      if x = t then TaskStatus.running else s.statusOf x := by
    intro x
    by_cases hx : x = t
    · subst hx
      rw [getD_set_self s.status x .running .idle ht, if_pos rfl]
    · rw [getD_set_ne s.status .running .idle (fun hh => hx hh.symm), if_neg hx]
      rfl
  have hflight : ∀ x, (if x = t then TaskStatus.running else s.statusOf x) = .running ∨
      (if x = t then TaskStatus.running else s.statusOf x) = .woken → x = t := by
    intro x hx
    by_cases hxt : x = t
    · exact hxt
    · rw [if_neg hxt] at hx
      exact absurd hx (hv.noneNoFlight he x)
  refine
    { uniqueFlight := ?_
      noneNoFlight := ?_
      noneNoWait := ?_
      busyNoWait := ?_
      busyNoWoken := ?_
      queueWaiting := ?_
      queueNodup := ?_
      queueLt := ?_
      wokenQueue := ?_
      orderEq := ?_ }
  · intro t₁ t₂ h1 h2
    unfold QState.inFlight QState.statusOf at h1 h2
    simp only at h1 h2
    rw [hso t₁] at h1
    rw [hso t₂] at h2
    rw [hflight t₁ h1, hflight t₂ h2]
  · intro hne
    exact Option.noConfusion hne
  · intro hne
    exact Option.noConfusion hne
  · intro _ x
    unfold QState.statusOf
    simp only
    rw [hso x]
    by_cases hx : x = t
    · rw [if_pos hx]
      exact fun hh => TaskStatus.noConfusion hh
    · rw [if_neg hx]
      exact hv.noneNoWait he x
  · intro _ x
    unfold QState.statusOf
    simp only
    rw [hso x]
    by_cases hx : x = t
    · rw [if_pos hx]
      exact fun hh => TaskStatus.noConfusion hh
    · rw [if_neg hx]
      intro hw
      exact hv.noneNoFlight he x (Or.inr hw)
  · intro q hq
    exact Option.noConfusion (Option.some.inj hq)
  · intro q hq
    exact Option.noConfusion (Option.some.inj hq)
  · intro q hq
    exact Option.noConfusion (Option.some.inj hq)
  · intro u hu
    unfold QState.statusOf at hu
    simp only at hu
    rw [hso u] at hu
    by_cases hx : u = t
    · rw [if_pos hx] at hu
      exact TaskStatus.noConfusion hu
    · rw [if_neg hx] at hu
      exact absurd (Or.inr hu) (hv.noneNoFlight he u)
  · obtain ⟨w, heq, hbr⟩ := hv.orderEq
    have hq0 : s.queueOf = [] := by
      unfold QState.queueOf
      rw [he]
    have hw0 : w = [] := by
      rcases hbr with ⟨h1, _⟩ | ⟨u, h1, hu⟩
      · exact h1
      · exact absurd (Or.inr hu) (hv.noneNoFlight he u)
    subst hw0
    rw [hq0] at heq
    simp only [List.append_nil] at heq
    refine ⟨[], ?_, Or.inl ⟨rfl, ?_⟩⟩
    · show s.arrived ++ [t] = (s.started ++ [t]) ++ [] ++ ([] : List Nat)
      simp [heq]
    · intro u
      unfold QState.statusOf
      simp only
      rw [hso u]
      by_cases hx : u = t
      · rw [if_pos hx]
        exact fun hh => TaskStatus.noConfusion hh
      · rw [if_neg hx]
        intro hw
        exact hv.noneNoFlight he u (Or.inr hw)

theorem qinvArriveNewQueue (s : QState) (t : Nat) (ht : t < s.status.length)
    (hsi : s.statusOf t = .idle) (he : s.entry = some none) (hv : QInv s) :
    QInv { entry := some (some [t]), status := s.status.set t .waiting,
           arrived := s.arrived ++ [t], started := s.started } := by
  have hso : ∀ x, (s.status.set t TaskStatus.waiting).getD x TaskStatus.idle =
      if x = t then TaskStatus.waiting else s.statusOf x := by
    intro x
    by_cases hx : x = t
    · subst hx
      rw [getD_set_self s.status x .waiting .idle ht, if_pos rfl]
    · rw [getD_set_ne s.status .waiting .idle (fun hh => hx hh.symm), if_neg hx]
      rfl
  refine
    { uniqueFlight := ?_
      noneNoFlight := ?_
      noneNoWait := ?_
      busyNoWait := ?_
      busyNoWoken := ?_
      queueWaiting := ?_
      queueNodup := ?_
      queueLt := ?_
      wokenQueue := ?_
      orderEq := ?_ }
  · intro t₁ t₂ h1 h2
    unfold QState.inFlight QState.statusOf at h1 h2
    simp only at h1 h2
    rw [hso t₁] at h1
    rw [hso t₂] at h2
    have g1 : s.inFlight t₁ := by
      by_cases hx : t₁ = t
      · rw [if_pos hx] at h1
        rcases h1 with h | h
        · exact TaskStatus.noConfusion h
        · exact TaskStatus.noConfusion h
      · rw [if_neg hx] at h1
        exact h1
    have g2 : s.inFlight t₂ := by
      by_cases hx : t₂ = t
      · rw [if_pos hx] at h2
        rcases h2 with h | h
        · exact TaskStatus.noConfusion h
        · exact TaskStatus.noConfusion h
      · rw [if_neg hx] at h2
        exact h2
    exact hv.uniqueFlight t₁ t₂ g1 g2
  · intro hne
    exact Option.noConfusion hne
  · intro hne
    exact Option.noConfusion hne
  · intro hb
    exact Option.noConfusion (Option.some.inj hb)
  · intro hb
    exact Option.noConfusion (Option.some.inj hb)
  · intro q hq x
    have hq' : ([t] : List Nat) = q := Option.some.inj (Option.some.inj hq)
    subst hq'
    unfold QState.statusOf
    simp only
    rw [hso x]
    by_cases hx : x = t
    · subst hx
      simp
    · rw [if_neg hx]
      rw [List.mem_singleton]
      constructor
      · intro hw
        exact absurd hw (hv.busyNoWait he x)
      · intro hxe
        exact absurd hxe hx
  · intro q hq
    have hq' : ([t] : List Nat) = q := Option.some.inj (Option.some.inj hq)
    subst hq'
    exact List.nodup_singleton t
  · intro q hq x hx
    have hq' : ([t] : List Nat) = q := Option.some.inj (Option.some.inj hq)
    subst hq'
    rw [List.mem_singleton] at hx
    rw [hx]
    show t < (s.status.set t TaskStatus.waiting).length
    rw [List.length_set]
    exact ht
  · intro u hu
    exact ⟨[t], rfl⟩
  · obtain ⟨w, heq, hbr⟩ := hv.orderEq
    have hq0 : s.queueOf = [] := by
      unfold QState.queueOf
      rw [he]
    have hw0 : w = [] := by
      rcases hbr with ⟨h1, _⟩ | ⟨u, _, hu⟩
      · exact h1
      · exact absurd hu (hv.busyNoWoken he u)
    subst hw0
    rw [hq0] at heq
    simp only [List.append_nil] at heq
    refine ⟨[], ?_, Or.inl ⟨rfl, ?_⟩⟩
    · show s.arrived ++ [t] = s.started ++ [] ++ [t]
      simp [heq]
    · intro u
      unfold QState.statusOf
      simp only
      rw [hso u]
      by_cases hx : u = t
      · rw [if_pos hx]
        exact fun hh => TaskStatus.noConfusion hh
      · rw [if_neg hx]
        exact hv.busyNoWoken he u

theorem qinvArriveJoin (s : QState) (t : Nat) (q : List Nat) (ht : t < s.status.length)
    (hsi : s.statusOf t = .idle) (he : s.entry = some (some q)) (hv : QInv s) :
    QInv { entry := some (some (q ++ [t])), status := s.status.set t .waiting,
           arrived := s.arrived ++ [t], started := s.started } := by
  have hso : ∀ x, (s.status.set t TaskStatus.waiting).getD x TaskStatus.idle =
      if x = t then TaskStatus.waiting else s.statusOf x := by
    intro x
    by_cases hx : x = t
    · subst hx
      rw [getD_set_self s.status x .waiting .idle ht, if_pos rfl]
    · rw [getD_set_ne s.status .waiting .idle (fun hh => hx hh.symm), if_neg hx]
      rfl
  have htq : t ∉ q := by
    intro hmem
    have hw := (hv.queueWaiting q he t).mpr hmem
    rw [hsi] at hw
    exact TaskStatus.noConfusion hw
  refine
    { uniqueFlight := ?_
      noneNoFlight := ?_
      noneNoWait := ?_
      busyNoWait := ?_
      busyNoWoken := ?_
      queueWaiting := ?_
      queueNodup := ?_
      queueLt := ?_
      wokenQueue := ?_
      orderEq := ?_ }
  · intro t₁ t₂ h1 h2
    unfold QState.inFlight QState.statusOf at h1 h2
    simp only at h1 h2
    rw [hso t₁] at h1
    rw [hso t₂] at h2
    have g1 : s.inFlight t₁ := by
      by_cases hx : t₁ = t
      · rw [if_pos hx] at h1
        rcases h1 with h | h
        · exact TaskStatus.noConfusion h
        · exact TaskStatus.noConfusion h
      · rw [if_neg hx] at h1
        exact h1
    have g2 : s.inFlight t₂ := by
      by_cases hx : t₂ = t
      · rw [if_pos hx] at h2
        rcases h2 with h | h
        · exact TaskStatus.noConfusion h
        · exact TaskStatus.noConfusion h
      · rw [if_neg hx] at h2
        exact h2
    exact hv.uniqueFlight t₁ t₂ g1 g2
  · intro hne
    exact Option.noConfusion hne
  · intro hne
    exact Option.noConfusion hne
  · intro hb
    exact Option.noConfusion (Option.some.inj hb)
  · intro hb
    exact Option.noConfusion (Option.some.inj hb)
  · intro q' hq x
    have hq' : q ++ [t] = q' := Option.some.inj (Option.some.inj hq)
    subst hq'
    unfold QState.statusOf
    simp only
    rw [hso x]
    by_cases hx : x = t
    · subst hx
      simp
    · rw [if_neg hx]
      rw [List.mem_append, List.mem_singleton]
      constructor
      · intro hw
        exact Or.inl ((hv.queueWaiting q he x).mp hw)
      · intro hor
        rcases hor with hl | hr
        · exact (hv.queueWaiting q he x).mpr hl
        · exact absurd hr hx
  · intro q' hq
    have hq' : q ++ [t] = q' := Option.some.inj (Option.some.inj hq)
    subst hq'
    refine (hv.queueNodup q he).append (List.nodup_singleton t) ?_
    intro a ha hb
    rw [List.mem_singleton] at hb
    subst hb
    exact htq ha
  · intro q' hq x hx
    have hq' : q ++ [t] = q' := Option.some.inj (Option.some.inj hq)
    subst hq'
    rw [List.mem_append, List.mem_singleton] at hx
    show x < (s.status.set t TaskStatus.waiting).length
    rw [List.length_set]
    rcases hx with hl | hr
    · exact hv.queueLt q he x hl
    · rw [hr]
      exact ht
  · intro u hu
    exact ⟨q ++ [t], rfl⟩
  · obtain ⟨w, heq, hbr⟩ := hv.orderEq
    have hq0 : s.queueOf = q := by
      unfold QState.queueOf
      rw [he]
    rw [hq0] at heq
    refine ⟨w, ?_, ?_⟩
    · show s.arrived ++ [t] = s.started ++ w ++ (q ++ [t])
      rw [heq]
      simp [List.append_assoc]
    · rcases hbr with ⟨h1, h2⟩ | ⟨u, h1, hu⟩
      · refine Or.inl ⟨h1, ?_⟩
        intro u
        unfold QState.statusOf
        simp only
        rw [hso u]
        by_cases hx : u = t
        · rw [if_pos hx]
          exact fun hh => TaskStatus.noConfusion hh
        · rw [if_neg hx]
          exact h2 u
      · refine Or.inr ⟨u, h1, ?_⟩
        have hut : u ≠ t := by
          intro hh
          rw [hh, hsi] at hu
          exact TaskStatus.noConfusion hu
        unfold QState.statusOf
        simp only
        rw [hso u, if_neg hut]
        exact hu

theorem qinvFinishNoQueue (s : QState) (t : Nat)
    (hs : s.statusOf t = .running) (he : s.entry = some none) (hv : QInv s) :
    QInv { entry := none, status := s.status.set t .done,
           arrived := s.arrived, started := s.started } := by
  have ht : t < s.status.length := by
    apply statusOf_lt_of_ne_idle
    rw [hs]
    exact fun hh => TaskStatus.noConfusion hh
  have hso : ∀ x, (s.status.set t TaskStatus.done).getD x TaskStatus.idle =
      if x = t then TaskStatus.done else s.statusOf x := by
    intro x
    by_cases hx : x = t
    · subst hx
      rw [getD_set_self s.status x .done .idle ht, if_pos rfl]
    · rw [getD_set_ne s.status .done .idle (fun hh => hx hh.symm), if_neg hx]
      rfl
  have hnf : ∀ x, ¬ ((if x = t then TaskStatus.done else s.statusOf x) = .running ∨
      (if x = t then TaskStatus.done else s.statusOf x) = .woken) := by
    intro x hx
    by_cases hxt : x = t
    · rw [if_pos hxt] at hx
      rcases hx with h | h
      · exact TaskStatus.noConfusion h
      · exact TaskStatus.noConfusion h
    · rw [if_neg hxt] at hx
      exact hxt (hv.uniqueFlight x t hx (Or.inl hs))
  refine
    { uniqueFlight := ?_
      noneNoFlight := ?_
      noneNoWait := ?_
      busyNoWait := ?_
      busyNoWoken := ?_
      queueWaiting := ?_
      queueNodup := ?_
      queueLt := ?_
      wokenQueue := ?_
      orderEq := ?_ }
  · intro t₁ t₂ h1 h2
    unfold QState.inFlight QState.statusOf at h1
    simp only at h1
    rw [hso t₁] at h1
    exact absurd h1 (hnf t₁)
  · intro _ x hx
    unfold QState.inFlight QState.statusOf at hx
    simp only at hx
    rw [hso x] at hx
    exact hnf x hx
  · intro _ x
    unfold QState.statusOf
    simp only
    rw [hso x]
    by_cases hxt : x = t
    · rw [if_pos hxt]
      exact fun hh => TaskStatus.noConfusion hh
    · rw [if_neg hxt]
      exact hv.busyNoWait he x
  · intro hb
    exact Option.noConfusion hb
  · intro hb
    exact Option.noConfusion hb
  · intro q hq
    exact Option.noConfusion hq
  · intro q hq
    exact Option.noConfusion hq
  · intro q hq
    exact Option.noConfusion hq
  · intro u hu
    unfold QState.statusOf at hu
    simp only at hu
    rw [hso u] at hu
    exact absurd (Or.inr hu) (hnf u)
  · obtain ⟨w, heq, hbr⟩ := hv.orderEq
    have hq0 : s.queueOf = [] := by
      unfold QState.queueOf
      rw [he]
    have hw0 : w = [] := by
      rcases hbr with ⟨h1, _⟩ | ⟨u, _, hu⟩
      · exact h1
      · exact absurd hu (hv.busyNoWoken he u)
    subst hw0
    rw [hq0] at heq
    simp only [List.append_nil] at heq
    refine ⟨[], ?_, Or.inl ⟨rfl, ?_⟩⟩
    · show s.arrived = s.started ++ [] ++ ([] : List Nat)
      simp [heq]
    · intro u
      unfold QState.statusOf
      simp only
      rw [hso u]
      exact fun hh => hnf u (Or.inr hh)

theorem qinvFinishEmptyQueue (s : QState) (t : Nat)
    (hs : s.statusOf t = .running) (he : s.entry = some (some [])) (hv : QInv s) :
    QInv { entry := none, status := s.status.set t .done,
           arrived := s.arrived, started := s.started } := by
  have ht : t < s.status.length := by
    apply statusOf_lt_of_ne_idle
    rw [hs]
    exact fun hh => TaskStatus.noConfusion hh
  have hnw : ∀ u, s.statusOf u ≠ .woken := by
    intro u hu
    have huts := hv.uniqueFlight u t (Or.inr hu) (Or.inl hs)
    rw [huts, hs] at hu
    exact TaskStatus.noConfusion hu
  have hnww : ∀ x, s.statusOf x ≠ .waiting := by
    intro x hw
    have hmem := (hv.queueWaiting [] he x).mp hw
    exact absurd hmem (by simp)
  have hso : ∀ x, (s.status.set t TaskStatus.done).getD x TaskStatus.idle =
      if x = t then TaskStatus.done else s.statusOf x := by
    intro x
    by_cases hx : x = t
    · subst hx
      rw [getD_set_self s.status x .done .idle ht, if_pos rfl]
    · rw [getD_set_ne s.status .done .idle (fun hh => hx hh.symm), if_neg hx]
      rfl
  have hnf : ∀ x, ¬ ((if x = t then TaskStatus.done else s.statusOf x) = .running ∨
      (if x = t then TaskStatus.done else s.statusOf x) = .woken) := by
    intro x hx
    by_cases hxt : x = t
    · rw [if_pos hxt] at hx
      rcases hx with h | h
      · exact TaskStatus.noConfusion h
      · exact TaskStatus.noConfusion h
    · rw [if_neg hxt] at hx
      exact hxt (hv.uniqueFlight x t hx (Or.inl hs))
  refine
    { uniqueFlight := ?_
      noneNoFlight := ?_
      noneNoWait := ?_
      busyNoWait := ?_
      busyNoWoken := ?_
      queueWaiting := ?_
      queueNodup := ?_
      queueLt := ?_
      wokenQueue := ?_
      orderEq := ?_ }
  · intro t₁ t₂ h1 h2
    unfold QState.inFlight QState.statusOf at h1
    simp only at h1
    rw [hso t₁] at h1
    exact absurd h1 (hnf t₁)
  · intro _ x hx
    unfold QState.inFlight QState.statusOf at hx
    simp only at hx
    rw [hso x] at hx
    exact hnf x hx
  · intro _ x
    unfold QState.statusOf
    simp only
    rw [hso x]
    by_cases hxt : x = t
    · rw [if_pos hxt]
      exact fun hh => TaskStatus.noConfusion hh
    · rw [if_neg hxt]
      exact hnww x
  · intro hb
    exact Option.noConfusion hb
  · intro hb
    exact Option.noConfusion hb
  · intro q hq
    exact Option.noConfusion hq
  · intro q hq
    exact Option.noConfusion hq
  · intro q hq
    exact Option.noConfusion hq
  · intro u hu
    unfold QState.statusOf at hu
    simp only at hu
    rw [hso u] at hu
    exact absurd (Or.inr hu) (hnf u)
  · obtain ⟨w, heq, hbr⟩ := hv.orderEq
    have hq0 : s.queueOf = [] := by
      unfold QState.queueOf
      rw [he]
    have hw0 : w = [] := by
      rcases hbr with ⟨h1, _⟩ | ⟨u, _, hu⟩
      · exact h1
      · exact absurd hu (hnw u)
    subst hw0
    rw [hq0] at heq
    simp only [List.append_nil] at heq
    refine ⟨[], ?_, Or.inl ⟨rfl, ?_⟩⟩
    · show s.arrived = s.started ++ [] ++ ([] : List Nat)
      simp [heq]
    · intro u
      unfold QState.statusOf
      simp only
      rw [hso u]
      exact fun hh => hnf u (Or.inr hh)

theorem qinvFinishWake (s : QState) (t u : Nat) (rest : List Nat)
    (hs : s.statusOf t = .running) (he : s.entry = some (some (u :: rest)))
    (hv : QInv s) :
    QInv { entry := some (some rest),
           status := (s.status.set t .done).set u .woken,
           arrived := s.arrived, started := s.started } := by
  have ht : t < s.status.length := by
    apply statusOf_lt_of_ne_idle
    rw [hs]
    exact fun hh => TaskStatus.noConfusion hh
  have huw : s.statusOf u = .waiting :=
    (hv.queueWaiting (u :: rest) he u).mpr (List.mem_cons_self u rest)
  have hu_lt : u < s.status.length :=
    hv.queueLt (u :: rest) he u (List.mem_cons_self u rest)
  have hnw : ∀ x, s.statusOf x ≠ .woken := by
    intro x hx
    have hxt := hv.uniqueFlight x t (Or.inr hx) (Or.inl hs)
    rw [hxt, hs] at hx
    exact TaskStatus.noConfusion hx
  have hnd := hv.queueNodup (u :: rest) he
  have hunr : u ∉ rest := (List.nodup_cons.mp hnd).1
  have hrnd : rest.Nodup := (List.nodup_cons.mp hnd).2
  have hlen : ((s.status.set t TaskStatus.done).set u TaskStatus.woken).length =
      s.status.length := by
    rw [List.length_set, List.length_set]
  have hu_lt' : u < (s.status.set t TaskStatus.done).length := by
    rw [List.length_set]
    exact hu_lt
  have hso : ∀ x,
      ((s.status.set t TaskStatus.done).set u TaskStatus.woken).getD x TaskStatus.idle =
      if x = u then TaskStatus.woken
      else if x = t then TaskStatus.done else s.statusOf x := by
    intro x
    by_cases hxu : x = u
    · subst hxu
      rw [getD_set_self (s.status.set t TaskStatus.done) x .woken .idle hu_lt',
        if_pos rfl]
    · rw [getD_set_ne (s.status.set t TaskStatus.done) .woken .idle
        (fun hh => hxu hh.symm), if_neg hxu]
      by_cases hxt : x = t
      · subst hxt
        rw [getD_set_self s.status x .done .idle ht, if_pos rfl]
      · rw [getD_set_ne s.status .done .idle (fun hh => hxt hh.symm), if_neg hxt]
        rfl
  have hfl : ∀ x,
      ((if x = u then TaskStatus.woken
        else if x = t then TaskStatus.done else s.statusOf x) = TaskStatus.running ∨
       (if x = u then TaskStatus.woken
        else if x = t then TaskStatus.done else s.statusOf x) = TaskStatus.woken) →
      x = u := by
    intro x hx
    by_cases hxu : x = u
    · exact hxu
    · rw [if_neg hxu] at hx
      by_cases hxt : x = t
      · rw [if_pos hxt] at hx
        rcases hx with h | h
        · exact TaskStatus.noConfusion h
        · exact TaskStatus.noConfusion h
      · rw [if_neg hxt] at hx
        rcases hx with h | h
        · exact absurd (hv.uniqueFlight x t (Or.inl h) (Or.inl hs)) hxt
        · exact absurd h (hnw x)
  refine
    { uniqueFlight := ?_
      noneNoFlight := ?_
      noneNoWait := ?_
      busyNoWait := ?_
      busyNoWoken := ?_
      queueWaiting := ?_
      queueNodup := ?_
      queueLt := ?_
      wokenQueue := ?_
      orderEq := ?_ }
  · intro t₁ t₂ h1 h2
    unfold QState.inFlight QState.statusOf at h1 h2
    simp only at h1 h2
    rw [hso t₁] at h1
    rw [hso t₂] at h2
    rw [hfl t₁ h1, hfl t₂ h2]
  · intro hne
    exact Option.noConfusion hne
  · intro hne
    exact Option.noConfusion hne
  · intro hb
    exact Option.noConfusion (Option.some.inj hb)
  · intro hb
    exact Option.noConfusion (Option.some.inj hb)
  · intro q hq x
    have hq' : rest = q := Option.some.inj (Option.some.inj hq)
    subst hq'
    unfold QState.statusOf
    simp only
    rw [hso x]
    by_cases hxu : x = u
    · rw [if_pos hxu]
      constructor
      · intro hh
        exact TaskStatus.noConfusion hh
      · intro hmem
        exact absurd (hxu ▸ hmem) hunr
    · rw [if_neg hxu]
      by_cases hxt : x = t
      · rw [if_pos hxt]
        constructor
        · intro hh
          exact TaskStatus.noConfusion hh
        · intro hmem
          have hxw : s.statusOf x = TaskStatus.waiting :=
            (hv.queueWaiting (u :: rest) he x).mpr (List.mem_cons_of_mem u hmem)
          rw [hxt, hs] at hxw
          exact TaskStatus.noConfusion hxw
      · rw [if_neg hxt]
        constructor
        · intro hw
          have hmem := (hv.queueWaiting (u :: rest) he x).mp hw
          rcases List.mem_cons.mp hmem with h1 | h2
          · exact absurd h1 hxu
          · exact h2
        · intro hmem
          exact (hv.queueWaiting (u :: rest) he x).mpr (List.mem_cons_of_mem u hmem)
  · intro q hq
    have hq' : rest = q := Option.some.inj (Option.some.inj hq)
    subst hq'
    exact hrnd
  · intro q hq x hx
    have hq' : rest = q := Option.some.inj (Option.some.inj hq)
    subst hq'
    show x < ((s.status.set t TaskStatus.done).set u TaskStatus.woken).length
    rw [hlen]
    exact hv.queueLt (u :: rest) he x (List.mem_cons_of_mem u hx)
  · intro v hvw
    exact ⟨rest, rfl⟩
  · obtain ⟨w, heq, hbr⟩ := hv.orderEq
    have hq0 : s.queueOf = u :: rest := by
      unfold QState.queueOf
      rw [he]
    have hw0 : w = [] := by
      rcases hbr with ⟨h1, _⟩ | ⟨v, _, hvw⟩
      · exact h1
      · exact absurd hvw (hnw v)
    subst hw0
    rw [hq0] at heq
    simp only [List.append_nil] at heq
    refine ⟨[u], ?_, Or.inr ⟨u, rfl, ?_⟩⟩
    · show s.arrived = s.started ++ [u] ++ rest
      rw [heq]
      simp
    · unfold QState.statusOf
      simp only
      rw [hso u, if_pos rfl]

theorem qinvResume (s : QState) (u : Nat) (hu : s.statusOf u = .woken)
    (hv : QInv s) :
    QInv { entry := s.entry, status := s.status.set u .running,
           arrived := s.arrived, started := s.started ++ [u] } := by
  have hu_lt : u < s.status.length := by
    apply statusOf_lt_of_ne_idle
    rw [hu]
    exact fun hh => TaskStatus.noConfusion hh
  obtain ⟨q0, heq0⟩ := hv.wokenQueue u hu
  have hso : ∀ x, (s.status.set u TaskStatus.running).getD x TaskStatus.idle =
      if x = u then TaskStatus.running else s.statusOf x := by
    intro x
    by_cases hx : x = u
    · subst hx
      rw [getD_set_self s.status x .running .idle hu_lt, if_pos rfl]
    · rw [getD_set_ne s.status .running .idle (fun hh => hx hh.symm), if_neg hx]
      rfl
  have hfl : ∀ x,
      ((if x = u then TaskStatus.running else s.statusOf x) = TaskStatus.running ∨
       (if x = u then TaskStatus.running else s.statusOf x) = TaskStatus.woken) →
      x = u := by
    intro x hx
    by_cases hxu : x = u
    · exact hxu
    · rw [if_neg hxu] at hx
      exact hv.uniqueFlight x u hx (Or.inr hu)
  refine
    { uniqueFlight := ?_
      noneNoFlight := ?_
      noneNoWait := ?_
      busyNoWait := ?_
      busyNoWoken := ?_
      queueWaiting := ?_
      queueNodup := ?_
      queueLt := ?_
      wokenQueue := ?_
      orderEq := ?_ }
  · intro t₁ t₂ h1 h2
    unfold QState.inFlight QState.statusOf at h1 h2
    simp only at h1 h2
    rw [hso t₁] at h1
    rw [hso t₂] at h2
    rw [hfl t₁ h1, hfl t₂ h2]
  · intro hne
    have hne' : s.entry = none := hne
    rw [heq0] at hne'
    exact Option.noConfusion hne'
  · intro hne
    have hne' : s.entry = none := hne
    rw [heq0] at hne'
    exact Option.noConfusion hne'
  · intro hb
    have hb' : s.entry = some none := hb
    rw [heq0] at hb'
    exact Option.noConfusion (Option.some.inj hb')
  · intro hb
    have hb' : s.entry = some none := hb
    rw [heq0] at hb'
    exact Option.noConfusion (Option.some.inj hb')
  · intro q hq x
    have hq' : s.entry = some (some q) := hq
    have hnotq : u ∉ q := by
      intro hmem
      have hw := (hv.queueWaiting q hq' u).mpr hmem
      rw [hu] at hw
      exact TaskStatus.noConfusion hw
    unfold QState.statusOf
    simp only
    rw [hso x]
    by_cases hxu : x = u
    · rw [if_pos hxu]
      constructor
      · intro hh
        exact TaskStatus.noConfusion hh
      · intro hmem
        exact absurd (hxu ▸ hmem) hnotq
    · rw [if_neg hxu]
      exact hv.queueWaiting q hq' x
  · intro q hq
    have hq' : s.entry = some (some q) := hq
    exact hv.queueNodup q hq'
  · intro q hq x hx
    have hq' : s.entry = some (some q) := hq
    show x < (s.status.set u TaskStatus.running).length
    rw [List.length_set]
    exact hv.queueLt q hq' x hx
  · intro v hvw
    exact ⟨q0, heq0⟩
  · obtain ⟨w, heqo, hbr⟩ := hv.orderEq
    have hw1 : w = [u] := by
      rcases hbr with ⟨_, h2⟩ | ⟨v, h1, hvw⟩
      · exact absurd hu (h2 u)
      · have hvu : v = u := hv.uniqueFlight v u (Or.inr hvw) (Or.inr hu)
        rw [h1, hvu]
    subst hw1
    have hq00 : s.queueOf = q0 := by
      unfold QState.queueOf
      rw [heq0]
    refine ⟨[], ?_, Or.inl ⟨rfl, ?_⟩⟩
    · show s.arrived = (s.started ++ [u]) ++ [] ++
        QState.queueOf ⟨s.entry, s.status.set u TaskStatus.running, s.arrived,
          s.started ++ [u]⟩
      rw [heq0]
      show s.arrived = (s.started ++ [u]) ++ [] ++ q0
      rw [heqo, hq00]
      simp
    · intro x
      unfold QState.statusOf
      simp only
      rw [hso x]
      by_cases hxu : x = u
      · rw [if_pos hxu]
        exact fun hh => TaskStatus.noConfusion hh
      · rw [if_neg hxu]
        intro hw
        exact hxu (hv.uniqueFlight x u (Or.inr hw) (Or.inr hu))

theorem QInv_step {s s' : QState} (h : QStep s s') (hv : QInv s) : QInv s' := by
  cases h with
  | arriveRun t ht hs he => exact qinvArriveRun s t ht hs he hv
  | arriveNewQueue t ht hs he => exact qinvArriveNewQueue s t ht hs he hv
  | arriveJoin t q ht hs he => exact qinvArriveJoin s t q ht hs he hv
  | finishNoQueue t hs he => exact qinvFinishNoQueue s t hs he hv
  | finishEmptyQueue t hs he => exact qinvFinishEmptyQueue s t hs he hv
  | finishWake t u rest hs he => exact qinvFinishWake s t u rest hs he hv
  | resume u hu => exact qinvResume s u hu hv

theorem QInv_reachable {n : Nat} {s : QState} (h : QReachable n s) : QInv s := by
  unfold QReachable at h
  induction h with
  | refl => exact QInv_init n
  | tail hab hbc ih => exact QInv_step hbc ih

theorem qsC6_reachable : QReachable 2 qsC6 := by
  have h1 : QStep (initQState 2)
      (⟨some none, [.running, .idle], [0], [0]⟩ : QState) :=
    QStep.arriveRun (initQState 2) 0 (by decide) (by decide) rfl
  have h2 : QStep (⟨some none, [.running, .idle], [0], [0]⟩ : QState)
      (⟨some (some [1]), [.running, .waiting], [0, 1], [0]⟩ : QState) :=
    QStep.arriveNewQueue ⟨some none, [.running, .idle], [0], [0]⟩ 1
      (by decide) (by decide) rfl
  have h3 : QStep (⟨some (some [1]), [.running, .waiting], [0, 1], [0]⟩ : QState)
      (⟨some (some []), [.done, .woken], [0, 1], [0]⟩ : QState) :=
    QStep.finishWake ⟨some (some [1]), [.running, .waiting], [0, 1], [0]⟩ 0 1 []
      (by decide) rfl
  have h4 : QStep (⟨some (some []), [.done, .woken], [0, 1], [0]⟩ : QState)
      (⟨some (some []), [.done, .running], [0, 1], [0, 1]⟩ : QState) :=
    QStep.resume ⟨some (some []), [.done, .woken], [0, 1], [0]⟩ 1 (by decide)
  have h5 : QStep (⟨some (some []), [.done, .running], [0, 1], [0, 1]⟩ : QState)
      qsC6 :=
    QStep.finishEmptyQueue ⟨some (some []), [.done, .running], [0, 1], [0, 1]⟩ 1
      (by decide) rfl
  exact Relation.ReflTransGen.tail
    (Relation.ReflTransGen.tail
      (Relation.ReflTransGen.tail
        (Relation.ReflTransGen.tail
          (Relation.ReflTransGen.tail Relation.ReflTransGen.refl h1) h2) h3) h4) h5

/-- C6: for every key of the wait-queue table and every number `n` of
concurrent launch calls for single-concurrency hooks sharing that key, in
every state reachable under the per-key wait-queue protocol of `launch`
(`_hook_waiting_queues`) at most one execution of the key is in flight at any
time, and the sequence of execution starts is a prefix of the FIFO sequence
of arrivals: serialized executions run strictly sequentially in arrival
order. -/
theorem c6_single_thread_fifo {n : Nat} {s : QState} (h : QReachable n s) :
    (∀ t₁ t₂, s.inFlight t₁ → s.inFlight t₂ → t₁ = t₂) ∧
    (∃ w, s.arrived = s.started ++ w) := by
  have hv := QInv_reachable h
  refine ⟨hv.uniqueFlight, ?_⟩
  obtain ⟨w, heq, _⟩ := hv.orderEq
  refine ⟨w ++ s.queueOf, ?_⟩
  rw [heq, List.append_assoc]

/-- Witness for C6: the two-task scenario (task 0 runs at once, task 1 queues
behind it, is woken when 0 finishes, runs, finishes) reaches `qsC6`, where
mutual exclusion and the FIFO start-order prefix property hold. -/
theorem c6_single_thread_fifo_witness :
    QReachable 2 qsC6 ∧
    ((∀ t₁ t₂, qsC6.inFlight t₁ → qsC6.inFlight t₂ → t₁ = t₂) ∧
     (∃ w, qsC6.arrived = qsC6.started ++ w)) :=
  ⟨qsC6_reachable, c6_single_thread_fifo qsC6_reachable⟩

end EliRefresh
